import Mathlib

/-!
# Enhedron command-line parameter binder

A shallow embedding of `Enhedron/CommandLine/Parameters.h` (class `Arguments` with
`ParamName`, `Option<string>`, `Flag` and `ExitStatus`) and theorems about it.

Modelling conventions

* `const char* const argv[]` is a function from the index to `Option String`; `none`
  is the null pointer.  The code only ever reads the indices `0 .. argc - 1`.
* `std::set<string>` is a duplicate-free list (`StrSet`), `std::map<string,
  vector<string>>` an association list (`StrMap`); only membership and lookup are
  observable in the code, iteration order is never used.
* The variadic pack `Params&&...` is a `List Param`; the handler takes the list of
  bound values and the positional arguments.
* The streams are lists of the strings written, one element per output statement.
* Streaming a null `const char*` puts the stream into its failed state (badbit):
  nothing more is written to it, and the run goes on.
* `vector::front()` on an empty vector is undefined behaviour and ends the run with
  `Termination.undefined`.
-/

namespace Enhedron.CommandLine

/-- The enumeration `ExitStatus` (lines 34-51). -/
inductive ExitStatus
  | OK
  | USAGE
  | DATAERR
  | NOINPUT
  | NOUSER
  | NOHOST
  | UNAVAILABLE
  | SOFTWARE
  | OSERR
  | OSFILE
  | CANTCREAT
  | IOERR
  | TEMPFAIL
  | PROTOCOL
  | NOPERM
  | CONFIG
  deriving DecidableEq, Repr

/-- The integer value of an enumerator, `static_cast<int>(status)`. -/
def ExitStatus.toInt : ExitStatus → Int
  | .OK => 0
  | .USAGE => 64
  | .DATAERR => 65
  | .NOINPUT => 66
  | .NOUSER => 67
  | .NOHOST => 68
  | .UNAVAILABLE => 69
  | .SOFTWARE => 70
  | .OSERR => 71
  | .OSFILE => 72
  | .CANTCREAT => 73
  | .IOERR => 74
  | .TEMPFAIL => 75
  | .PROTOCOL => 76
  | .NOPERM => 77
  | .CONFIG => 78

/-- The constant `helpOption` (line 53). -/
def helpOption : String := "--help"

/-- The constant `versionOption` (line 54). -/
def versionOption : String := "--version"

/-- The class `ParamName` (lines 56-78).  Its two fields are private and set only by
its two constructors, so an object is given by the constructor call that made it:
`ParamName(string longName)` (line 61) or `ParamName(char shortName, string longName)`
(lines 62-66). -/
inductive ParamName
  | ofLong (longName : String)
  | ofShortLong (shortName : Char) (longName : String)
  deriving DecidableEq, Repr

/-- The field `shortName_`: empty after the first constructor, `"-"` with the
character pushed back after the second. -/
def ParamName.shortName_ : ParamName → Option String
  | .ofLong _ => none
  | .ofShortLong shortName _ => some ("-".push shortName)

/-- The field `longName_`: `"--" + longName` after either constructor. -/
def ParamName.longName_ : ParamName → String
  | .ofLong longName => "--" ++ longName
  | .ofShortLong _ longName => "--" ++ longName

/-- The member `forEachName` (lines 68-75) for a functor that updates captured
state `s`: the short name first when there is one, then the long name. -/
def ParamName.forEachName {σ : Type} (p : ParamName) (functor : String → σ → σ) (s : σ) : σ :=
  match p.shortName_ with
  | some shortName => functor p.longName_ (functor shortName s)
  | none => functor p.longName_ s

/-- The member `forEachName` (lines 68-75) for a functor that may throw: an
exception leaves the loop at once. -/
def ParamName.forEachNameExcept {σ ε : Type} (p : ParamName)
    (functor : String → σ → Except ε σ) (s : σ) : Except ε σ :=
  match p.shortName_ with
  | some shortName =>
    match functor shortName s with
    | .error e => .error e
    | .ok s1 => functor p.longName_ s1
  | none => functor p.longName_ s

/-- The member `longName()` (line 77). -/
def ParamName.longName (p : ParamName) : String := p.longName_

/-- The strings `forEachName` visits, in order. -/
def ParamName.names (p : ParamName) : List String :=
  p.forEachName (fun name acc => acc ++ [name]) []

/-- One element of the parameter pack: an `Option<string>` (lines 80-85) or a
`Flag` (lines 87-90), both of which are a `ParamName`. -/
inductive Param
  | option (name : ParamName)
  | flag (name : ParamName)
  deriving DecidableEq, Repr

/-- The `ParamName` base of a descriptor. -/
def Param.paramName : Param → ParamName
  | .option name => name
  | .flag name => name

/-- A `std::set<string>`. -/
abbrev StrSet := List String

/-- The member `count` of a set: 1 when the element is present, else 0. -/
def StrSet.count (s : StrSet) (name : String) : Nat :=
  if name ∈ s then 1 else 0

/-- The member `emplace` of a set: the set afterwards and whether the element was
inserted. -/
def StrSet.emplace (s : StrSet) (name : String) : StrSet × Bool :=
  if name ∈ s then (s, false) else (s ++ [name], true)

/-- A `std::map<string, vector<string>>`. -/
abbrev StrMap := List (String × List String)

/-- The vector stored under a key, empty when the key is absent. -/
def StrMap.values : StrMap → String → List String
  | [], _ => []
  | (key, vs) :: m, name => if key = name then vs else StrMap.values m name

/-- Whether a key is present. -/
def StrMap.hasKey : StrMap → String → Bool
  | [], _ => false
  | (key, _) :: m, name => if key = name then true else StrMap.hasKey m name

/-- The read `map[name]`: `operator[]` inserts an empty vector under an absent key;
the result is the map afterwards and the vector found. -/
def StrMap.index (m : StrMap) (name : String) : StrMap × List String :=
  if StrMap.hasKey m name then (m, StrMap.values m name) else (m ++ [(name, [])], [])

/-- The statement `map[name].emplace_back(value)` (line 309). -/
def StrMap.emplaceBack : StrMap → String → String → StrMap
  | [], name, value => [(name, [value])]
  | (key, vs) :: m, name, value =>
    if key = name then (key, vs ++ [value]) :: m
    else (key, vs) :: StrMap.emplaceBack m name value

/-- A value bound to the handler: the string of an option or the boolean of a flag. -/
inductive Bound
  | value (s : String)
  | flag (b : Bool)
  deriving DecidableEq, Repr

/-- The caller's handler: the bound values in declaration order, then the
positional arguments. -/
abbrev Handler := List Bound → List String → ExitStatus

/-- The functor threaded through the binder: the handler together with the
arguments `bindFirst` has already fixed, first one first. -/
structure BoundFunctor where
  handler : Handler
  bound : List Bound

/-- The helper `Util::bindFirst`: fix the next leading argument of the functor. -/
def bindFirst (functor : BoundFunctor) (v : Bound) : BoundFunctor :=
  { functor with bound := functor.bound ++ [v] }

/-- One call of the handler: what it was given. -/
structure Invocation where
  bound : List Bound
  positionalArgs : List String
  deriving DecidableEq, Repr

/-- What the private `run` overloads (the binder) did: the lines written to
`output_`, the calls of the handler, and the status returned; `none` when the
behaviour is undefined. -/
structure BindResult where
  output : List String
  calls : List Invocation
  status : Option ExitStatus
  deriving DecidableEq, Repr

/-- The body of the functor of line 134-137: append `optionValues[name]` to
`paramValues`. -/
def collectValues (name : String) (s : StrMap × List String) : StrMap × List String :=
  ((s.1.index name).1, s.2 ++ (s.1.index name).2)

/-- The body of the functor of line 172-174: assign `setFlags.count(name) > 0` to
`flagValue`. -/
def assignFlag (setFlags : StrSet) (name : String) (_flagValue : Bool) : Bool :=
  decide (setFlags.count name > 0)

/-- The line written when an option has no value (line 140). -/
def noValueLine (param : ParamName) : String :=
  "Error: No value for " ++ param.longName ++ "\n"

/-- The line written when an option has several values (line 144). -/
def multipleValuesLine (param : ParamName) : String :=
  "Error: Multiple values for " ++ param.longName ++ "\n"

/-- The lines the `Option` overload writes for the merged value list (lines 139-145). -/
def cardinalityLines (param : ParamName) (paramValues : List String) : List String :=
  (if paramValues.isEmpty then [noValueLine param] else [])
    ++ (if paramValues.length > 1 then [multipleValuesLine param] else [])

/-- The loop of lines 134-137 of the `Option` overload: the map and the vector
`paramValues` after `forEachName`. -/
def mergeValues (optionValues : StrMap) (param : ParamName) : StrMap × List String :=
  param.forEachName collectValues (optionValues, [])

/-- The vector `paramValues` of the `Option` overload (lines 132-137). -/
def paramValues (optionValues : StrMap) (param : ParamName) : List String :=
  (mergeValues optionValues param).2

/-- The variable `flagValue` of the `Flag` overload after `forEachName` (lines 170-174). -/
def flagValue (setFlags : StrSet) (flag : ParamName) : Bool :=
  flag.forEachName (assignFlag setFlags) false

/-- The private overloads of `run` (lines 111-187): the base case calls the functor
with the positional arguments; the `Option` overload merges the values of all names,
writes its diagnostics and binds `paramValues.front()`, which is undefined on an
empty vector; the `Flag` overload binds `flagValue`. -/
def runParams (output : List String) (optionValues : StrMap) (positionalArgs : List String)
    (setFlags : StrSet) (functor : BoundFunctor) : List Param → BindResult
  | [] =>
    { output := output
      calls := [{ bound := functor.bound, positionalArgs := positionalArgs }]
      status := some (functor.handler functor.bound positionalArgs) }
  | .option param :: paramTail =>
    match paramValues optionValues param with
    | [] =>
      { output := output ++ cardinalityLines param [], calls := [], status := none }
    | front :: more =>
      runParams (output ++ cardinalityLines param (front :: more))
        (mergeValues optionValues param).1 positionalArgs
        setFlags (bindFirst functor (.value front)) paramTail
  | .flag flag :: paramTail =>
    runParams output optionValues positionalArgs setFlags
      (bindFirst functor (.flag (flagValue setFlags flag))) paramTail

/-- The functor of lines 225-229: insert the name into `allNames`, throw
`logic_error` when it is already there. -/
def insertNew (name : String) (allNames : StrSet) : Except String StrSet :=
  if (allNames.emplace name).2 then .ok (allNames.emplace name).1
  else .error ("Duplicate name " ++ name)

/-- The functor of lines 197-199: insert the name into `optionNames`. -/
def insertOption (name : String) (optionNames : StrSet) : StrSet :=
  (optionNames.emplace name).1

/-- The members `readNames` and `readNamesImpl` (lines 189-232): the result is
`(optionNames, allNames)`, or the message of the `logic_error` thrown. -/
def readNames (optionNames allNames : StrSet) : List Param → Except String (StrSet × StrSet)
  | [] => .ok (optionNames, allNames)
  | param :: paramsTail =>
    match param.paramName.forEachNameExcept insertNew allNames with
    | .error what => .error what
    | .ok allNames1 =>
      match param with
      | .option option =>
        readNames (option.forEachName insertOption optionNames) allNames1 paramsTail
      | .flag _ => readNames optionNames allNames1 paramsTail

/-- The three containers filled by the loop of lines 285-318. -/
structure ScanState where
  optionValues : StrMap
  positionalArgs : List String
  setFlags : StrSet
  deriving DecidableEq, Repr

/-- How the loop of lines 285-318 ends: a `return` of `USAGE` after writing a line,
the `break` at the token `--`, or the index reaching `argc`. -/
inductive ScanResult
  | usage (line : String)
  | terminated (st : ScanState)
  | exhausted (st : ScanState)
  deriving DecidableEq, Repr

/-- The test `! currentArg.empty() && currentArg[0] == '-'` (line 293). -/
def startsWithDash (currentArg : String) : Bool :=
  match currentArg.data with
  | [] => false
  | c :: _ => decide (c = '-')

/-- The loop of lines 285-318 over the tokens `argv[index .. argc)`: the head of
the list is `argv[index]`, and `++index` inside the option branch takes the next
element as the value. -/
def scanArgs (optionNames allNames : StrSet) : ScanState → List String → ScanResult
  | st, [] => .exhausted st
  | st, currentArg :: rest =>
    if currentArg = "--" then
      .terminated { st with positionalArgs := st.positionalArgs ++ currentArg :: rest }
    else if startsWithDash currentArg then
      if allNames.count currentArg = 0 then
        .usage ("Error: Unknown option " ++ currentArg ++ "\n")
      else if optionNames.count currentArg ≠ 0 then
        match rest with
        | [] => .usage ("Error: No value supplied for option " ++ currentArg ++ "\n")
        | value :: rest1 =>
          scanArgs optionNames allNames
            { st with optionValues := st.optionValues.emplaceBack currentArg value } rest1
      else
        scanArgs optionNames allNames
          { st with setFlags := (st.setFlags.emplace currentArg).1 } rest
    else
      scanArgs optionNames allNames
        { st with positionalArgs := st.positionalArgs ++ [currentArg] } rest

/-- The loop of lines 252-254, which streams every `argv[index]` to `cerr`: the
lines written, and whether the stream is still good afterwards.  A null pointer
sets badbit on `cerr`, so the `"X"` before it is the last thing written, in this
iteration and in the later ones; the loop itself goes on to its end. -/
def echoArgs : List (Option String) → List String × Bool
  | [] => ([], true)
  | none :: _ => (["X"], false)
  | some arg :: rest => (("X" ++ arg ++ "X\n") :: (echoArgs rest).1, (echoArgs rest).2)

/-- The loop of lines 261-269: `none` when some `argv[index]` is null, else the
value of `help` after the loop together with the strings `argv[0 .. argc)`. -/
def checkArgs (help : Bool) : List (Option String) → Option (Bool × List String)
  | [] => some (help, [])
  | none :: _ => none
  | some arg :: rest =>
    match checkArgs (if arg = helpOption then true else help) rest with
    | none => none
    | some (help1, args) => some (help1, arg :: args)

/-- How a call of the public `run` ends: it returns an `int`, it throws
`logic_error`, or its behaviour is undefined. -/
inductive Termination
  | returned (status : Int)
  | threw (what : String)
  | undefined
  deriving DecidableEq, Repr

/-- What a call of the public `run` did. -/
structure RunResult where
  cerr : List String
  output : List String
  calls : List Invocation
  term : Termination
  deriving DecidableEq, Repr

/-- The class `Arguments` (lines 97-100); the stream `output_` is the field `output`
of the result. -/
structure Arguments where
  description_ : String
  notes_ : String

/-- The member `displayHelp` (lines 102-109): the text written. -/
def displayHelp (exeName description notes : String) : String :=
  "Usage: " ++ exeName ++ " [OPTION]...\n\n"
    ++ description ++ "\n\n"
    ++ " Standard Options:\n\n"
    ++ "  --help        Display this help message.\n"
    ++ "  --version     Display version information.\n\n"
    ++ notes ++ "\n"

/-- The entries `argv[0 .. argc)`. -/
def argvEntries (argc : Int) (argv : Nat → Option String) : List (Option String) :=
  (List.range argc.toNat).map argv

/-- The public member `Arguments::run` (lines 243-329). -/
def Arguments.run (self : Arguments) (argc : Int) (argv : Nat → Option String)
    (functor : Handler) (params : List Param) : RunResult :=
  let cerr := (echoArgs (argvEntries argc argv)).1
  if argc ≤ 0 then
    { cerr := cerr, output := ["Error: argc is 0.\n"], calls := []
      term := .returned ExitStatus.USAGE.toInt }
  else
    match checkArgs false (argvEntries argc argv) with
    | none =>
      { cerr := cerr, output := ["Error: argv has null value.\n"], calls := []
        term := .returned ExitStatus.USAGE.toInt }
    | some (help, args) =>
      if help then
        { cerr := cerr
          output := [displayHelp (args.headD "") self.description_ self.notes_]
          calls := []
          term := .returned ExitStatus.OK.toInt }
      else
        match readNames [] [] params with
        | .error what => { cerr := cerr, output := [], calls := [], term := .threw what }
        | .ok (optionNames, allNames) =>
          match scanArgs optionNames allNames
              { optionValues := [], positionalArgs := [], setFlags := [] } args.tail with
          | .usage line =>
            { cerr := cerr, output := [line], calls := []
              term := .returned ExitStatus.USAGE.toInt }
          | .terminated st | .exhausted st =>
            match runParams [] st.optionValues st.positionalArgs st.setFlags
                { handler := functor, bound := [] } params with
            | { output := output, calls := calls, status := some status } =>
              { cerr := cerr, output := output, calls := calls, term := .returned status.toInt }
            | { output := output, calls := calls, status := none } =>
              { cerr := cerr, output := output, calls := calls, term := .undefined }

/-- The array `argv` holding the given entries, null from there on (as `argv[argc]`
is in a hosted program). -/
def argvOf (entries : List (Option String)) : Nat → Option String :=
  fun index => (entries.get? index).join

/-- A handler that reports `OK` whatever it is given. -/
def okHandler : Handler := fun _ _ => ExitStatus.OK

/-- Every alias of every descriptor, in declaration order. -/
def allAliases (params : List Param) : List String :=
  params.flatMap (fun param => param.paramName.names)

/-- The aliases of the `Option` descriptors, in declaration order. -/
def optionAliases : List Param → List String
  | [] => []
  | .option name :: paramsTail => name.names ++ optionAliases paramsTail
  | .flag _ :: paramsTail => optionAliases paramsTail

/-- A descriptor list is duplicate-free when no alias string occurs twice in it. -/
def DuplicateFree (params : List Param) : Prop :=
  (allAliases params).Nodup

instance (params : List Param) : Decidable (DuplicateFree params) :=
  inferInstanceAs (Decidable (allAliases params).Nodup)

/-- The strings among `argv[0 .. argc)`, in order. -/
def argStrings (argc : Int) (argv : Nat → Option String) : List String :=
  (argvEntries argc argv).filterMap id

/-- An `argv` is well-formed when `argc > 0` and no entry `argv[0 .. argc)` is null. -/
def WellFormed (argc : Int) (argv : Nat → Option String) : Prop :=
  0 < argc ∧ ∀ index : Nat, (index : Int) < argc → argv index ≠ none

/-- The containers before the first iteration of the loop (lines 281-283). -/
def ScanState.initial : ScanState :=
  { optionValues := [], positionalArgs := [], setFlags := [] }

/-- The loop of lines 285-318 run on the given tokens with the names of a
descriptor list, from the empty containers. -/
def scanTokens (params : List Param) (tokens : List String) : ScanResult :=
  scanArgs (optionAliases params) (allAliases params) ScanState.initial tokens

/-- The containers the binder receives: those at the `break` or at the end of the
loop, nothing after a usage error. -/
def ScanResult.state? : ScanResult → Option ScanState
  | .usage _ => none
  | .terminated st => some st
  | .exhausted st => some st

/-- The value the binder fixes for a descriptor from the containers: the front of
`paramValues` for an `Option` (none when the vector is empty), `flagValue` for a
`Flag`. -/
def bindingOf (optionValues : StrMap) (setFlags : StrSet) : Param → Option Bound
  | .option param => (paramValues optionValues param).head?.map Bound.value
  | .flag flag => some (Bound.flag (flagValue setFlags flag))

/-- The pairs (option token, value token) the loop of lines 285-318 handles in its
option branch, in order: a walk over the tokens with the same branches as the
loop, which records the pairs. -/
def scannedValues (optionNames allNames : StrSet) : List String → List (String × String)
  | [] => []
  | currentArg :: rest =>
    if currentArg = "--" then []
    else if startsWithDash currentArg then
      if allNames.count currentArg = 0 then []
      else if optionNames.count currentArg ≠ 0 then
        match rest with
        | [] => []
        | value :: rest1 => (currentArg, value) :: scannedValues optionNames allNames rest1
      else scannedValues optionNames allNames rest
    else scannedValues optionNames allNames rest

/-- The lines the binder writes for one descriptor (lines 139-145): the
diagnostics on the number of values of an `Option`, nothing for a `Flag`. -/
def diagnosticsOf (optionValues : StrMap) : Param → List String
  | .option param => cardinalityLines param (paramValues optionValues param)
  | .flag _ => []

/-- The values captured for a descriptor, as the pairs the option branch handled
give them: those under its first name in the order of `argv`, then those under its
second name in the order of `argv`. -/
def capturedValues (optionNames allNames : StrSet) (tokens : List String)
    (param : ParamName) : List String :=
  param.names.flatMap (fun name =>
    ((scannedValues optionNames allNames tokens).filter
      (fun u => decide (u.1 = name))).map Prod.snd)

/-- What the loop of lines 285-318 keeps true of its containers as long as no `--`
has been met: every key of `optionValues` is in `optionNames` and has a non-empty
vector, every member of `setFlags` is in `allNames` and not in `optionNames`, and no
element of `positionalArgs` begins with `-`. -/
def ScanInvariant (optionNames allNames : StrSet) (st : ScanState) : Prop :=
  (∀ entry ∈ st.optionValues, entry.1 ∈ optionNames ∧ entry.2 ≠ [])
    ∧ (∀ name ∈ st.setFlags, name ∈ allNames ∧ name ∉ optionNames)
    ∧ (∀ token ∈ st.positionalArgs, startsWithDash token = false)

/-- Two states of the containers with the same contents: the same vector under
every key of the map, the same members of the set, the same positional arguments (a
`std::map` and a `std::set` keep no order of insertion). -/
def SameContents (a b : ScanState) : Prop :=
  (∀ key, a.optionValues.values key = b.optionValues.values key)
    ∧ (∀ name, name ∈ a.setFlags ↔ name ∈ b.setFlags)
    ∧ a.positionalArgs = b.positionalArgs

/-- Whether the tokens are a unit of the descriptor: an alias of the `Flag`, or an
alias of the `Option` with one more token, its value. -/
def isUnitOf : Param → List String → Bool
  | .option param, [name, _] => decide (name ∈ param.names)
  | .flag flag, [name] => decide (name ∈ flag.names)
  | _, _ => false

/-- What the loop of lines 285-318 does to its containers when it handles a unit:
line 309 for an option token with its value, line 312 for a flag token. -/
def unitEffect : Param → List String → ScanState → ScanState
  | .option _, [name, value], st =>
    { st with optionValues := st.optionValues.emplaceBack name value }
  | .flag _, [name], st => { st with setFlags := (st.setFlags.emplace name).1 }
  | _, _, st => st

/-! ## The entries of `argv` -/

theorem map_some_filterMap_id {α : Type} (l : List (Option α)) (h : ∀ e ∈ l, e ≠ none) :
    (l.filterMap id).map some = l := by
  induction l with
  | nil => rfl
  | cons e l ih =>
    cases e with
    | none => exact absurd rfl (h none (List.mem_cons_self _ _))
    | some a =>
      have ih1 := ih (fun e he => h e (List.mem_cons_of_mem _ he))
      simp [List.filterMap_cons, ih1]

theorem argvEntries_eq_map_some (argc : Int) (argv : Nat → Option String)
    (hwf : WellFormed argc argv) :
    argvEntries argc argv = (argStrings argc argv).map some := by
  unfold argStrings
  refine (map_some_filterMap_id _ ?_).symm
  intro e he
  simp only [argvEntries, List.mem_map, List.mem_range] at he
  obtain ⟨index, hlt, rfl⟩ := he
  exact hwf.2 index (by omega)

theorem echoArgs_map_some (args : List String) : (echoArgs (args.map some)).2 = true := by
  induction args with
  | nil => rfl
  | cons arg args ih => simpa [echoArgs] using ih

theorem checkArgs_map_some (args : List String) (help : Bool) :
    checkArgs help (args.map some) = some (help || decide (helpOption ∈ args), args) := by
  induction args generalizing help with
  | nil => simp [checkArgs]
  | cons arg args ih =>
    simp only [List.map_cons, checkArgs, ih]
    by_cases h : arg = helpOption
    · simp [h]
    · have h1 : ¬ helpOption = arg := fun e => h e.symm
      simp [h, h1]

theorem argStrings_ne_nil (argc : Int) (argv : Nat → Option String)
    (hwf : WellFormed argc argv) : argStrings argc argv ≠ [] := by
  intro h
  have h1 := argvEntries_eq_map_some argc argv hwf
  rw [h] at h1
  have h2 : (argvEntries argc argv).length = argc.toNat := by simp [argvEntries]
  rw [h1] at h2
  have h3 := hwf.1
  simp at h2
  omega

/-! ## The paths through the public `run` -/

theorem run_help (self : Arguments) (argc : Int) (argv : Nat → Option String)
    (functor : Handler) (params : List Param) (hwf : WellFormed argc argv)
    (hhelp : helpOption ∈ argStrings argc argv) :
    self.run argc argv functor params =
      { cerr := (echoArgs (argvEntries argc argv)).1
        output := [displayHelp ((argStrings argc argv).headD "") self.description_ self.notes_]
        calls := []
        term := .returned ExitStatus.OK.toInt } := by
  have h1 := argvEntries_eq_map_some argc argv hwf
  have h2 := echoArgs_map_some (argStrings argc argv)
  have h3 := checkArgs_map_some (argStrings argc argv) false
  have h4 : ¬ argc ≤ 0 := by have := hwf.1; omega
  rw [← h1] at h2 h3
  simp [Arguments.run, h2, h3, h4, hhelp]

theorem run_duplicate (self : Arguments) (argc : Int) (argv : Nat → Option String)
    (functor : Handler) (params : List Param) (what : String) (hwf : WellFormed argc argv)
    (hhelp : helpOption ∉ argStrings argc argv)
    (hnames : readNames [] [] params = .error what) :
    self.run argc argv functor params =
      { cerr := (echoArgs (argvEntries argc argv)).1, output := [], calls := []
        term := .threw what } := by
  have h1 := argvEntries_eq_map_some argc argv hwf
  have h2 := echoArgs_map_some (argStrings argc argv)
  have h3 := checkArgs_map_some (argStrings argc argv) false
  have h4 : ¬ argc ≤ 0 := by have := hwf.1; omega
  rw [← h1] at h2 h3
  simp [Arguments.run, h2, h3, h4, hhelp, hnames]

theorem run_usage (self : Arguments) (argc : Int) (argv : Nat → Option String)
    (functor : Handler) (params : List Param) (optionNames allNames : StrSet) (line : String)
    (hwf : WellFormed argc argv) (hhelp : helpOption ∉ argStrings argc argv)
    (hnames : readNames [] [] params = .ok (optionNames, allNames))
    (hscan : scanArgs optionNames allNames ScanState.initial (argStrings argc argv).tail
      = .usage line) :
    self.run argc argv functor params =
      { cerr := (echoArgs (argvEntries argc argv)).1, output := [line], calls := []
        term := .returned ExitStatus.USAGE.toInt } := by
  have h1 := argvEntries_eq_map_some argc argv hwf
  have h2 := echoArgs_map_some (argStrings argc argv)
  have h3 := checkArgs_map_some (argStrings argc argv) false
  have h4 : ¬ argc ≤ 0 := by have := hwf.1; omega
  rw [← h1] at h2 h3
  simp only [ScanState.initial] at hscan
  simp [Arguments.run, h2, h3, h4, hhelp, hnames, hscan]

theorem run_bind (self : Arguments) (argc : Int) (argv : Nat → Option String)
    (functor : Handler) (params : List Param) (optionNames allNames : StrSet) (st : ScanState)
    (hwf : WellFormed argc argv) (hhelp : helpOption ∉ argStrings argc argv)
    (hnames : readNames [] [] params = .ok (optionNames, allNames))
    (hscan : (scanArgs optionNames allNames ScanState.initial
      (argStrings argc argv).tail).state? = some st) :
    self.run argc argv functor params =
      { cerr := (echoArgs (argvEntries argc argv)).1
        output := (runParams [] st.optionValues st.positionalArgs st.setFlags
          { handler := functor, bound := [] } params).output
        calls := (runParams [] st.optionValues st.positionalArgs st.setFlags
          { handler := functor, bound := [] } params).calls
        term := match (runParams [] st.optionValues st.positionalArgs st.setFlags
            { handler := functor, bound := [] } params).status with
          | some status => .returned status.toInt
          | none => .undefined } := by
  have h1 := argvEntries_eq_map_some argc argv hwf
  have h2 := echoArgs_map_some (argStrings argc argv)
  have h3 := checkArgs_map_some (argStrings argc argv) false
  have h4 : ¬ argc ≤ 0 := by have := hwf.1; omega
  rw [← h1] at h2 h3
  simp only [ScanState.initial] at hscan
  rcases hr : runParams [] st.optionValues st.positionalArgs st.setFlags
    { handler := functor, bound := [] } params with ⟨output, calls, status⟩
  cases hs : scanArgs optionNames allNames
      { optionValues := [], positionalArgs := [], setFlags := [] }
      (argStrings argc argv).tail with
  | usage line => rw [hs] at hscan; simp [ScanResult.state?] at hscan
  | terminated st1 =>
    rw [hs] at hscan
    simp only [ScanResult.state?, Option.some.injEq] at hscan
    subst hscan
    cases status <;> simp [Arguments.run, h2, h3, h4, hhelp, hnames, hs, hr]
  | exhausted st1 =>
    rw [hs] at hscan
    simp only [ScanResult.state?, Option.some.injEq] at hscan
    subst hscan
    cases status <;> simp [Arguments.run, h2, h3, h4, hhelp, hnames, hs, hr]

theorem run_argc_nonpositive (self : Arguments) (argc : Int) (argv : Nat → Option String)
    (functor : Handler) (params : List Param) (hargc : argc ≤ 0) :
    (self.run argc argv functor params).term = .returned 64
      ∧ (self.run argc argv functor params).calls = []
      ∧ (self.run argc argv functor params).output = ["Error: argc is 0.\n"] := by
  have h1 : argc.toNat = 0 := by omega
  simp [Arguments.run, argvEntries, h1, echoArgs, hargc, ExitStatus.toInt]

/-! ## The name registry -/

theorem names_ofLong (longName : String) :
    (ParamName.ofLong longName).names = ["--" ++ longName] := rfl

theorem names_ofShortLong (shortName : Char) (longName : String) :
    (ParamName.ofShortLong shortName longName).names
      = ["-".push shortName, "--" ++ longName] := rfl

theorem allAliases_cons (param : Param) (params : List Param) :
    allAliases (param :: params) = param.paramName.names ++ allAliases params := by
  simp [allAliases]

theorem insertNew_names_ok (p : ParamName) (allNames : StrSet)
    (h : (allNames ++ p.names).Nodup) :
    p.forEachNameExcept insertNew allNames = .ok (allNames ++ p.names) := by
  cases p with
  | ofLong longName =>
    rw [names_ofLong] at h
    have h1 : ("--" ++ longName) ∉ allNames := by
      intro hm
      exact (List.nodup_append.1 h).2.2 hm (List.mem_singleton_self _)
    simp [ParamName.forEachNameExcept, ParamName.shortName_, ParamName.longName_, insertNew,
      StrSet.emplace, h1, names_ofLong]
  | ofShortLong shortName longName =>
    rw [names_ofShortLong] at h
    have h0 := List.nodup_append.1 h
    have h1 : ("-".push shortName) ∉ allNames := by
      intro hm
      exact h0.2.2 hm (by simp)
    have h2 : ("--" ++ longName) ∉ allNames := by
      intro hm
      exact h0.2.2 hm (by simp)
    have h3 : ("--" ++ longName) ≠ "-".push shortName := by
      intro e
      have := h0.2.1
      simp [e] at this
    simp [ParamName.forEachNameExcept, ParamName.shortName_, ParamName.longName_, insertNew,
      StrSet.emplace, h1, h2, h3, names_ofShortLong]

theorem insertNew_names_error (p : ParamName) (allNames : StrSet)
    (h : ¬ (allNames ++ p.names).Nodup) (hall : allNames.Nodup) :
    ∃ name, p.forEachNameExcept insertNew allNames = .error ("Duplicate name " ++ name) := by
  cases p with
  | ofLong longName =>
    rw [names_ofLong] at h
    have h1 : ("--" ++ longName) ∈ allNames := by
      by_contra hm
      apply h
      rw [List.nodup_append]
      refine ⟨hall, by simp, ?_⟩
      intro a ha hb
      rw [List.mem_singleton] at hb
      exact hm (hb ▸ ha)
    exact ⟨"--" ++ longName, by
      simp [ParamName.forEachNameExcept, ParamName.shortName_, ParamName.longName_, insertNew,
        StrSet.emplace, h1]⟩
  | ofShortLong shortName longName =>
    rw [names_ofShortLong] at h
    by_cases h1 : ("-".push shortName) ∈ allNames
    · exact ⟨"-".push shortName, by
        simp [ParamName.forEachNameExcept, ParamName.shortName_, insertNew,
          StrSet.emplace, h1]⟩
    · have h2 : ("--" ++ longName) ∈ allNames ++ ["-".push shortName] := by
        by_contra hm
        apply h
        rw [List.nodup_append]
        refine ⟨hall, ?_, ?_⟩
        · simp only [List.nodup_cons, List.mem_singleton, List.not_mem_nil, not_false_eq_true,
            List.nodup_nil, and_true]
          intro e
          apply hm
          simp [e]
        · intro a ha hb
          simp only [List.mem_cons, List.mem_singleton, List.not_mem_nil, or_false] at hb
          rcases hb with hb | hb
          · exact h1 (hb ▸ ha)
          · apply hm
            simp [← hb, ha]
      exact ⟨"--" ++ longName, by
        simp only [List.mem_append, List.mem_singleton] at h2
        simp [ParamName.forEachNameExcept, ParamName.shortName_, ParamName.longName_,
          insertNew, StrSet.emplace, h1, h2]⟩

theorem insertOption_names (p : ParamName) (optionNames : StrSet)
    (h : (optionNames ++ p.names).Nodup) :
    p.forEachName insertOption optionNames = optionNames ++ p.names := by
  cases p with
  | ofLong longName =>
    rw [names_ofLong] at h
    have h1 : ("--" ++ longName) ∉ optionNames := by
      intro hm
      exact (List.nodup_append.1 h).2.2 hm (List.mem_singleton_self _)
    simp [ParamName.forEachName, ParamName.shortName_, ParamName.longName_, insertOption,
      StrSet.emplace, h1, names_ofLong]
  | ofShortLong shortName longName =>
    rw [names_ofShortLong] at h
    have h0 := List.nodup_append.1 h
    have h1 : ("-".push shortName) ∉ optionNames := by
      intro hm
      exact h0.2.2 hm (by simp)
    have h2 : ("--" ++ longName) ∉ optionNames := by
      intro hm
      exact h0.2.2 hm (by simp)
    have h3 : ("--" ++ longName) ≠ "-".push shortName := by
      intro e
      have := h0.2.1
      simp [e] at this
    simp [ParamName.forEachName, ParamName.shortName_, ParamName.longName_, insertOption,
      StrSet.emplace, h1, h2, h3, names_ofShortLong]

theorem optionAliases_sublist (params : List Param) :
    (optionAliases params).Sublist (allAliases params) := by
  induction params with
  | nil => simp [optionAliases, allAliases]
  | cons param params ih =>
    rw [allAliases_cons]
    cases param with
    | option name => exact List.Sublist.append (List.Sublist.refl _) ih
    | flag name => exact ih.trans (List.sublist_append_right _ _)

theorem readNames_ok (params : List Param) (optionNames allNames : StrSet)
    (hall : (allNames ++ allAliases params).Nodup)
    (hopt : (optionNames ++ optionAliases params).Nodup) :
    readNames optionNames allNames params
      = .ok (optionNames ++ optionAliases params, allNames ++ allAliases params) := by
  induction params generalizing optionNames allNames with
  | nil => simp [readNames, optionAliases, allAliases]
  | cons param params ih =>
    rw [allAliases_cons, ← List.append_assoc] at hall
    have h1 := insertNew_names_ok param.paramName allNames
      (List.Nodup.sublist (List.sublist_append_left _ _) hall)
    cases param with
    | option name =>
      simp only [optionAliases, ← List.append_assoc] at hopt
      have h2 := insertOption_names name optionNames
        (List.Nodup.sublist (List.sublist_append_left _ _) hopt)
      simp only [Param.paramName] at h1 hall
      simp only [readNames, Param.paramName, h1, h2, ih _ _ hall hopt, allAliases_cons,
        optionAliases, List.append_assoc]
    | flag name =>
      simp only [optionAliases] at hopt
      simp only [Param.paramName] at h1 hall
      simp only [readNames, Param.paramName, h1, ih _ _ hall hopt, allAliases_cons,
        optionAliases, List.append_assoc]

theorem readNames_duplicateFree (params : List Param) (hdup : DuplicateFree params) :
    readNames [] [] params = .ok (optionAliases params, allAliases params) := by
  have h := readNames_ok params [] [] (by simpa using hdup)
    (by simpa using List.Nodup.sublist (optionAliases_sublist params) hdup)
  simpa using h

theorem readNames_error (params : List Param) (optionNames allNames : StrSet)
    (hall : allNames.Nodup) (hdup : ¬ (allNames ++ allAliases params).Nodup) :
    ∃ name, readNames optionNames allNames params = .error ("Duplicate name " ++ name) := by
  induction params generalizing optionNames allNames with
  | nil => simp [allAliases] at hdup; exact absurd hall hdup
  | cons param params ih =>
    rw [allAliases_cons, ← List.append_assoc] at hdup
    by_cases h : (allNames ++ param.paramName.names).Nodup
    · have h1 := insertNew_names_ok param.paramName allNames h
      cases param with
      | option name =>
        simp only [Param.paramName] at h1 hdup h
        obtain ⟨dup, hd⟩ := ih (name.forEachName insertOption optionNames) _ h hdup
        exact ⟨dup, by simp only [readNames, Param.paramName, h1, hd]⟩
      | flag name =>
        simp only [Param.paramName] at h1 hdup h
        obtain ⟨dup, hd⟩ := ih optionNames _ h hdup
        exact ⟨dup, by simp only [readNames, Param.paramName, h1, hd]⟩
    · obtain ⟨dup, hd⟩ := insertNew_names_error param.paramName allNames h hall
      exact ⟨dup, by simp only [readNames, hd]⟩

theorem readNames_not_duplicateFree (params : List Param) (hdup : ¬ DuplicateFree params) :
    ∃ name, readNames [] [] params = .error ("Duplicate name " ++ name) :=
  readNames_error params [] [] List.nodup_nil (by simpa [DuplicateFree] using hdup)

/-! ## The tokenizer loop -/

theorem count_eq_zero_iff (s : StrSet) (name : String) : s.count name = 0 ↔ name ∉ s := by
  unfold StrSet.count
  by_cases h : name ∈ s <;> simp [h]

theorem startsWithDash_of_mem_names (p : ParamName) (name : String) (h : name ∈ p.names) :
    startsWithDash name = true := by
  cases p with
  | ofLong longName =>
    rw [names_ofLong, List.mem_singleton] at h
    subst h
    simp [startsWithDash]
  | ofShortLong shortName longName =>
    rw [names_ofShortLong] at h
    simp only [List.mem_cons, List.mem_singleton, List.not_mem_nil, or_false] at h
    rcases h with h | h <;> subst h <;> simp [startsWithDash, String.push]

theorem scanArgs_terminator (optionNames allNames : StrSet) (st : ScanState)
    (rest : List String) :
    scanArgs optionNames allNames st ("--" :: rest)
      = .terminated { st with positionalArgs := st.positionalArgs ++ "--" :: rest } := by
  cases rest <;> simp [scanArgs]

theorem scanArgs_unknown (optionNames allNames : StrSet) (st : ScanState) (currentArg : String)
    (rest : List String) (h1 : currentArg ≠ "--") (h2 : startsWithDash currentArg = true)
    (h3 : allNames.count currentArg = 0) :
    scanArgs optionNames allNames st (currentArg :: rest)
      = .usage ("Error: Unknown option " ++ currentArg ++ "\n") := by
  cases rest <;> simp [scanArgs, h1, h2, h3]

theorem scanArgs_option_nil (optionNames allNames : StrSet) (st : ScanState)
    (currentArg : String) (h1 : currentArg ≠ "--") (h2 : startsWithDash currentArg = true)
    (h3 : allNames.count currentArg ≠ 0) (h4 : optionNames.count currentArg ≠ 0) :
    scanArgs optionNames allNames st [currentArg]
      = .usage ("Error: No value supplied for option " ++ currentArg ++ "\n") := by
  simp [scanArgs, h1, h2, h3, h4]

theorem scanArgs_option_cons (optionNames allNames : StrSet) (st : ScanState)
    (currentArg value : String) (rest : List String) (h1 : currentArg ≠ "--")
    (h2 : startsWithDash currentArg = true) (h3 : allNames.count currentArg ≠ 0)
    (h4 : optionNames.count currentArg ≠ 0) :
    scanArgs optionNames allNames st (currentArg :: value :: rest)
      = scanArgs optionNames allNames
          { st with optionValues := st.optionValues.emplaceBack currentArg value } rest := by
  simp [scanArgs, h1, h2, h3, h4]

theorem scanArgs_flag (optionNames allNames : StrSet) (st : ScanState) (currentArg : String)
    (rest : List String) (h1 : currentArg ≠ "--") (h2 : startsWithDash currentArg = true)
    (h3 : allNames.count currentArg ≠ 0) (h4 : ¬ optionNames.count currentArg ≠ 0) :
    scanArgs optionNames allNames st (currentArg :: rest)
      = scanArgs optionNames allNames
          { st with setFlags := (st.setFlags.emplace currentArg).1 } rest := by
  simp only [ne_eq, not_not] at h4
  cases rest <;> simp [scanArgs, h1, h2, h3, h4]

theorem scanArgs_positional (optionNames allNames : StrSet) (st : ScanState)
    (currentArg : String) (rest : List String) (h1 : currentArg ≠ "--")
    (h2 : ¬ startsWithDash currentArg = true) :
    scanArgs optionNames allNames st (currentArg :: rest)
      = scanArgs optionNames allNames
          { st with positionalArgs := st.positionalArgs ++ [currentArg] } rest := by
  cases rest <;> simp [scanArgs, h1, h2]

theorem scanArgs_append (optionNames allNames : StrSet) (st : ScanState) (pre : List String) :
    ∀ (st1 : ScanState) (rest : List String),
      scanArgs optionNames allNames st pre = .exhausted st1 →
      scanArgs optionNames allNames st (pre ++ rest) = scanArgs optionNames allNames st1 rest := by
  induction st, pre using scanArgs.induct optionNames allNames with
  | case1 st =>
    intro st1 rest h
    simp only [scanArgs, ScanResult.exhausted.injEq] at h
    subst h
    rfl
  | case2 st rest0 => intro st1 rest h; simp [scanArgs_terminator] at h
  | case3 st currentArg rest0 h1 h2 h3 =>
    intro st1 rest h
    simp [scanArgs_unknown _ _ _ _ _ h1 h2 h3] at h
  | case4 st currentArg h1 h2 h3 h4 =>
    intro st1 rest h
    simp [scanArgs_option_nil _ _ _ _ h1 h2 h3 h4] at h
  | case5 st currentArg h1 h2 h3 h4 value rest0 ih =>
    intro st1 rest h
    rw [scanArgs_option_cons _ _ _ _ _ _ h1 h2 h3 h4] at h
    rw [List.cons_append, List.cons_append, scanArgs_option_cons _ _ _ _ _ _ h1 h2 h3 h4]
    exact ih st1 rest h
  | case6 st currentArg rest0 h1 h2 h3 h4 ih =>
    intro st1 rest h
    rw [scanArgs_flag _ _ _ _ _ h1 h2 h3 h4] at h
    rw [List.cons_append, scanArgs_flag _ _ _ _ _ h1 h2 h3 h4]
    exact ih st1 rest h
  | case7 st currentArg rest0 h1 h2 ih =>
    intro st1 rest h
    rw [scanArgs_positional _ _ _ _ _ h1 h2] at h
    rw [List.cons_append, scanArgs_positional _ _ _ _ _ h1 h2]
    exact ih st1 rest h

theorem mem_allAliases (params : List Param) (name : String) :
    name ∈ allAliases params ↔ ∃ param ∈ params, name ∈ param.paramName.names := by
  simp [allAliases, List.mem_flatMap]

theorem mem_optionAliases (params : List Param) (p : ParamName) (name : String)
    (hp : Param.option p ∈ params) (hname : name ∈ p.names) :
    name ∈ optionAliases params := by
  induction params with
  | nil => simp at hp
  | cons param params ih =>
    rcases List.mem_cons.1 hp with h | h
    · subst h
      simp [optionAliases, hname]
    · cases param with
      | option name1 => simp [optionAliases, ih h]
      | flag name1 => simpa [optionAliases] using ih h

/-! ## The map of option values and the binder -/

theorem values_of_not_hasKey (m : StrMap) (name : String) (h : m.hasKey name = false) :
    m.values name = [] := by
  induction m with
  | nil => rfl
  | cons e m ih =>
    obtain ⟨key, vs⟩ := e
    by_cases hk : key = name
    · simp [StrMap.hasKey, hk] at h
    · simp only [StrMap.hasKey, hk, if_false] at h
      simp [StrMap.values, hk, ih h]

theorem values_append (m m1 : StrMap) (name : String) :
    StrMap.values (m ++ m1) name
      = if m.hasKey name then m.values name else StrMap.values m1 name := by
  induction m with
  | nil => simp [StrMap.hasKey]
  | cons e m ih =>
    obtain ⟨key, vs⟩ := e
    by_cases hk : key = name
    · simp [StrMap.values, StrMap.hasKey, hk]
    · simp [StrMap.values, StrMap.hasKey, hk, ih]

theorem index_snd (m : StrMap) (name : String) : (m.index name).2 = m.values name := by
  unfold StrMap.index
  by_cases h : m.hasKey name = true
  · simp [h]
  · simp only [Bool.not_eq_true] at h
    simp [h, values_of_not_hasKey m name h]

theorem index_fst_values (m : StrMap) (name key : String) :
    StrMap.values (m.index name).1 key = m.values key := by
  unfold StrMap.index
  by_cases h : m.hasKey name = true
  · simp [h]
  · simp only [Bool.not_eq_true] at h
    simp only [h, Bool.false_eq_true, if_false, values_append]
    by_cases hk : m.hasKey key = true
    · simp [hk]
    · simp only [Bool.not_eq_true] at hk
      simp [hk, values_of_not_hasKey m key hk, StrMap.values]

theorem emplaceBack_values (m : StrMap) (name value key : String) :
    StrMap.values (m.emplaceBack name value) key
      = if name = key then m.values key ++ [value] else m.values key := by
  induction m with
  | nil =>
    by_cases hk : name = key <;> simp [StrMap.emplaceBack, StrMap.values, hk]
  | cons e m ih =>
    obtain ⟨k, vs⟩ := e
    by_cases h1 : k = name
    · subst h1
      by_cases hk : k = key <;> simp [StrMap.emplaceBack, StrMap.values, hk]
    · by_cases hk : k = key
      · subst hk
        have h2 : ¬ name = k := fun e => h1 e.symm
        simp [StrMap.emplaceBack, StrMap.values, h1, h2]
      · simp [StrMap.emplaceBack, StrMap.values, h1, hk, ih]

theorem paramValues_eq (optionValues : StrMap) (p : ParamName) :
    paramValues optionValues p = p.names.flatMap (fun name => optionValues.values name) := by
  cases p with
  | ofLong longName =>
    simp [paramValues, mergeValues, ParamName.forEachName, ParamName.shortName_,
      ParamName.longName_, collectValues, index_snd, names_ofLong]
  | ofShortLong shortName longName =>
    simp [paramValues, mergeValues, ParamName.forEachName, ParamName.shortName_,
      ParamName.longName_, collectValues, index_snd, index_fst_values, names_ofShortLong]

theorem mergeValues_fst_values (optionValues : StrMap) (p : ParamName) (key : String) :
    StrMap.values (mergeValues optionValues p).1 key = optionValues.values key := by
  cases p with
  | ofLong longName =>
    simp [mergeValues, ParamName.forEachName, ParamName.shortName_,
      ParamName.longName_, collectValues, index_fst_values]
  | ofShortLong shortName longName =>
    simp [mergeValues, ParamName.forEachName, ParamName.shortName_,
      ParamName.longName_, collectValues, index_fst_values]

theorem bindingOf_congr (optionValues optionValues1 : StrMap) (setFlags : StrSet)
    (h : ∀ key, optionValues1.values key = optionValues.values key) (param : Param) :
    bindingOf optionValues1 setFlags param = bindingOf optionValues setFlags param := by
  cases param with
  | option p => simp [bindingOf, paramValues_eq, h]
  | flag p => rfl

theorem runParams_invokes (positionalArgs : List String) (setFlags : StrSet)
    (params : List Param) :
    ∀ (output : List String) (optionValues : StrMap) (functor : BoundFunctor),
      (∀ p, Param.option p ∈ params → paramValues optionValues p ≠ []) →
      ∃ bound, bound.map some = params.map (bindingOf optionValues setFlags)
        ∧ (runParams output optionValues positionalArgs setFlags functor params).calls
            = [⟨functor.bound ++ bound, positionalArgs⟩]
        ∧ (runParams output optionValues positionalArgs setFlags functor params).status
            = some (functor.handler (functor.bound ++ bound) positionalArgs) := by
  induction params with
  | nil =>
    intro output optionValues functor _
    exact ⟨[], rfl, by simp [runParams], by simp [runParams]⟩
  | cons param params ih =>
    intro output optionValues functor hvals
    cases param with
    | option p =>
      have hp := hvals p (List.mem_cons_self _ _)
      cases hpv : paramValues optionValues p with
      | nil => exact absurd hpv hp
      | cons front more =>
        have hcongr := mergeValues_fst_values optionValues p
        obtain ⟨bound, hb, hc, hs⟩ := ih (output ++ cardinalityLines p (front :: more))
          (mergeValues optionValues p).1 (bindFirst functor (.value front)) (by
            intro q hq
            rw [paramValues_eq]
            simp only [hcongr]
            rw [← paramValues_eq]
            exact hvals q (List.mem_cons_of_mem _ hq))
        refine ⟨Bound.value front :: bound, ?_, ?_, ?_⟩
        · rw [List.map_cons, List.map_cons, hb]
          congr 1
          · simp [bindingOf, hpv]
          · exact List.map_congr_left (fun q _ => bindingOf_congr _ _ _ hcongr q)
        · simp only [runParams, hpv]
          rw [hc]
          simp [bindFirst]
        · simp only [runParams, hpv]
          rw [hs]
          simp [bindFirst]
    | flag p =>
      obtain ⟨bound, hb, hc, hs⟩ := ih output optionValues
        (bindFirst functor (.flag (flagValue setFlags p))) (by
          intro q hq
          exact hvals q (List.mem_cons_of_mem _ hq))
      refine ⟨Bound.flag (flagValue setFlags p) :: bound, ?_, ?_, ?_⟩
      · rw [List.map_cons, List.map_cons, hb]
        rfl
      · simp only [runParams]
        rw [hc]
        simp [bindFirst]
      · simp only [runParams]
        rw [hs]
        simp [bindFirst]

/-! ## The values the loop captures -/

theorem scannedValues_option_cons (optionNames allNames : StrSet)
    (currentArg value : String) (rest : List String) (h1 : currentArg ≠ "--")
    (h2 : startsWithDash currentArg = true) (h3 : allNames.count currentArg ≠ 0)
    (h4 : optionNames.count currentArg ≠ 0) :
    scannedValues optionNames allNames (currentArg :: value :: rest)
      = (currentArg, value) :: scannedValues optionNames allNames rest := by
  simp [scannedValues, h1, h2, h3, h4]

theorem scannedValues_flag (optionNames allNames : StrSet) (currentArg : String)
    (rest : List String) (h1 : currentArg ≠ "--") (h2 : startsWithDash currentArg = true)
    (h3 : allNames.count currentArg ≠ 0) (h4 : ¬ optionNames.count currentArg ≠ 0) :
    scannedValues optionNames allNames (currentArg :: rest)
      = scannedValues optionNames allNames rest := by
  simp only [ne_eq, not_not] at h4
  cases rest <;> simp [scannedValues, h1, h2, h3, h4]

theorem scannedValues_positional (optionNames allNames : StrSet)
    (currentArg : String) (rest : List String) (h1 : currentArg ≠ "--")
    (h2 : ¬ startsWithDash currentArg = true) :
    scannedValues optionNames allNames (currentArg :: rest)
      = scannedValues optionNames allNames rest := by
  cases rest <;> simp [scannedValues, h1, h2]

theorem scannedValues_terminator (optionNames allNames : StrSet) (rest : List String) :
    scannedValues optionNames allNames ("--" :: rest) = [] := by
  cases rest <;> simp [scannedValues]

theorem scanArgs_values (optionNames allNames : StrSet) (st : ScanState)
    (tokens : List String) :
    ∀ (st1 : ScanState), (scanArgs optionNames allNames st tokens).state? = some st1 →
      ∀ key, st1.optionValues.values key = st.optionValues.values key
        ++ ((scannedValues optionNames allNames tokens).filter
            (fun u => decide (u.1 = key))).map Prod.snd := by
  induction st, tokens using scanArgs.induct optionNames allNames with
  | case1 st =>
    intro st1 h key
    simp only [scanArgs, ScanResult.state?, Option.some.injEq] at h
    subst h
    simp [scannedValues]
  | case2 st rest0 =>
    intro st1 h key
    simp only [scanArgs_terminator, ScanResult.state?, Option.some.injEq] at h
    subst h
    simp [scannedValues_terminator]
  | case3 st currentArg rest0 h1 h2 h3 =>
    intro st1 h
    simp [scanArgs_unknown _ _ _ _ _ h1 h2 h3, ScanResult.state?] at h
  | case4 st currentArg h1 h2 h3 h4 =>
    intro st1 h
    simp [scanArgs_option_nil _ _ _ _ h1 h2 h3 h4, ScanResult.state?] at h
  | case5 st currentArg h1 h2 h3 h4 value rest0 ih =>
    intro st1 h key
    rw [scanArgs_option_cons _ _ _ _ _ _ h1 h2 h3 h4] at h
    rw [ih st1 h key, scannedValues_option_cons _ _ _ _ _ h1 h2 h3 h4, emplaceBack_values]
    by_cases hk : currentArg = key
    · simp [hk, List.filter_cons]
    · simp [hk, List.filter_cons]
  | case6 st currentArg rest0 h1 h2 h3 h4 ih =>
    intro st1 h key
    rw [scanArgs_flag _ _ _ _ _ h1 h2 h3 h4] at h
    rw [ih st1 h key, scannedValues_flag _ _ _ _ h1 h2 h3 h4]
  | case7 st currentArg rest0 h1 h2 ih =>
    intro st1 h key
    rw [scanArgs_positional _ _ _ _ _ h1 h2] at h
    rw [ih st1 h key, scannedValues_positional _ _ _ _ h1 h2]

theorem runParams_status_calls (positionalArgs : List String) (setFlags : StrSet)
    (params : List Param) :
    ∀ (output : List String) (optionValues : StrMap) (functor : BoundFunctor),
      ((runParams output optionValues positionalArgs setFlags functor params).status = none
        ∧ (runParams output optionValues positionalArgs setFlags functor params).calls = [])
      ∨ ∃ bound,
        (runParams output optionValues positionalArgs setFlags functor params).status
            = some (functor.handler bound positionalArgs)
        ∧ (runParams output optionValues positionalArgs setFlags functor params).calls
            = [⟨bound, positionalArgs⟩] := by
  induction params with
  | nil =>
    intro output optionValues functor
    exact Or.inr ⟨functor.bound, by simp [runParams], by simp [runParams]⟩
  | cons param params ih =>
    intro output optionValues functor
    cases param with
    | option p =>
      cases hpv : paramValues optionValues p with
      | nil => exact Or.inl ⟨by simp [runParams, hpv], by simp [runParams, hpv]⟩
      | cons front more =>
        simp only [runParams, hpv]
        exact ih _ _ (bindFirst functor (.value front))
    | flag p =>
      simp only [runParams]
      exact ih _ _ (bindFirst functor (.flag (flagValue setFlags p)))

theorem run_returned_cases (self : Arguments) (argc : Int) (argv : Nat → Option String)
    (functor : Handler) (params : List Param) (n : Int)
    (h : (self.run argc argv functor params).term = .returned n) :
    ((n = 0 ∨ n = 64) ∧ (self.run argc argv functor params).calls = [])
      ∨ ∃ bound positionalArgs,
        (self.run argc argv functor params).calls = [⟨bound, positionalArgs⟩]
          ∧ n = (functor bound positionalArgs).toInt := by
  by_cases hargc : argc ≤ 0
  · simp [Arguments.run, hargc, ExitStatus.toInt] at h ⊢
    exact Or.inr h.symm
  cases hcheck : checkArgs false (argvEntries argc argv) with
  | none =>
    simp [Arguments.run, hargc, hcheck, ExitStatus.toInt] at h ⊢
    exact Or.inr h.symm
  | some checked =>
    obtain ⟨help, args⟩ := checked
    cases help with
    | true =>
      simp [Arguments.run, hargc, hcheck, ExitStatus.toInt] at h ⊢
      exact Or.inl h.symm
    | false =>
      cases hnames : readNames [] [] params with
      | error what =>
        simp [Arguments.run, hargc, hcheck, hnames] at h
      | ok names =>
        obtain ⟨optionNames, allNames⟩ := names
        cases hscan : scanArgs optionNames allNames
            { optionValues := [], positionalArgs := [], setFlags := [] } args.tail with
        | usage line =>
          simp [Arguments.run, hargc, hcheck, hnames, hscan, ExitStatus.toInt] at h ⊢
          exact Or.inr h.symm
        | terminated st =>
          rcases hr : runParams [] st.optionValues st.positionalArgs st.setFlags
            { handler := functor, bound := [] } params with ⟨output, calls, status⟩
          have hb := runParams_status_calls st.positionalArgs st.setFlags params []
            st.optionValues { handler := functor, bound := [] }
          rw [hr] at hb
          cases status with
          | none => simp [Arguments.run, hargc, hcheck, hnames, hscan, hr] at h
          | some status =>
            simp [Arguments.run, hargc, hcheck, hnames, hscan, hr] at h ⊢
            rcases hb with hb | ⟨bound, hb1, hb2⟩
            · simp at hb
            · simp only [Option.some.injEq] at hb1
              simp only at hb2
              exact Or.inr ⟨bound, st.positionalArgs, hb2, by rw [← h, hb1]⟩
        | exhausted st =>
          rcases hr : runParams [] st.optionValues st.positionalArgs st.setFlags
            { handler := functor, bound := [] } params with ⟨output, calls, status⟩
          have hb := runParams_status_calls st.positionalArgs st.setFlags params []
            st.optionValues { handler := functor, bound := [] }
          rw [hr] at hb
          cases status with
          | none => simp [Arguments.run, hargc, hcheck, hnames, hscan, hr] at h
          | some status =>
            simp [Arguments.run, hargc, hcheck, hnames, hscan, hr] at h ⊢
            rcases hb with hb | ⟨bound, hb1, hb2⟩
            · simp at hb
            · simp only [Option.some.injEq] at hb1
              simp only at hb2
              exact Or.inr ⟨bound, st.positionalArgs, hb2, by rw [← h, hb1]⟩

theorem mem_optionAliases_iff (params : List Param) (name : String) :
    name ∈ optionAliases params ↔ ∃ p, Param.option p ∈ params ∧ name ∈ p.names := by
  constructor
  · intro h
    induction params with
    | nil => simp [optionAliases] at h
    | cons param params ih =>
      cases param with
      | option q =>
        simp only [optionAliases, List.mem_append] at h
        rcases h with h | h
        · exact ⟨q, List.mem_cons_self _ _, h⟩
        · obtain ⟨p, hp, hn⟩ := ih h
          exact ⟨p, List.mem_cons_of_mem _ hp, hn⟩
      | flag q =>
        simp only [optionAliases] at h
        obtain ⟨p, hp, hn⟩ := ih h
        exact ⟨p, List.mem_cons_of_mem _ hp, hn⟩
  · rintro ⟨p, hp, hn⟩
    exact mem_optionAliases params p name hp hn

theorem flag_alias_not_mem_optionAliases (params : List Param) (hdup : DuplicateFree params)
    (f : ParamName) (hf : Param.flag f ∈ params) (name : String) (hname : name ∈ f.names) :
    name ∉ optionAliases params := by
  induction params with
  | nil => simp at hf
  | cons q params ih =>
    unfold DuplicateFree at hdup
    rw [allAliases_cons] at hdup
    have hd := List.nodup_append.1 hdup
    have hsub : ∀ x, x ∈ optionAliases params → x ∈ allAliases params :=
      fun x hx => (optionAliases_sublist params).subset hx
    rcases List.mem_cons.1 hf with h | h
    · subst h
      simp only [optionAliases]
      intro hmem
      exact hd.2.2 hname (hsub name hmem)
    · have hall : name ∈ allAliases params :=
        (mem_allAliases params name).2 ⟨Param.flag f, h, hname⟩
      cases q with
      | option q =>
        simp only [optionAliases, List.mem_append, not_or]
        exact ⟨fun hq => hd.2.2 hq hall, ih hd.2.1 h⟩
      | flag q =>
        simp only [optionAliases]
        exact ih hd.2.1 h

theorem run_not_threw (self : Arguments) (argc : Int) (argv : Nat → Option String)
    (functor : Handler) (params : List Param) (hdup : DuplicateFree params)
    (hwf : WellFormed argc argv) (hhelp : helpOption ∉ argStrings argc argv) (what : String) :
    (self.run argc argv functor params).term ≠ .threw what := by
  cases hscan : scanArgs (optionAliases params) (allAliases params) ScanState.initial
      (argStrings argc argv).tail with
  | usage line =>
    rw [run_usage self argc argv functor params _ _ _ hwf hhelp
      (readNames_duplicateFree params hdup) hscan]
    simp
  | terminated st =>
    rw [run_bind self argc argv functor params _ _ st hwf hhelp
      (readNames_duplicateFree params hdup) (by rw [hscan]; rfl)]
    simp only
    split <;> simp
  | exhausted st =>
    rw [run_bind self argc argv functor params _ _ st hwf hhelp
      (readNames_duplicateFree params hdup) (by rw [hscan]; rfl)]
    simp only
    split <;> simp

theorem checkArgs_of_null (entries : List (Option String)) (h : none ∈ entries) :
    ∀ help : Bool, checkArgs help entries = none := by
  induction entries with
  | nil => simp at h
  | cons e entries ih =>
    intro help
    cases e with
    | none => rfl
    | some arg =>
      have h1 : none ∈ entries := by simpa using h
      simp [checkArgs, ih h1]

theorem echoArgs_of_null (entries : List (Option String)) (h : none ∈ entries) :
    (echoArgs entries).2 = false := by
  induction entries with
  | nil => simp at h
  | cons e entries ih =>
    cases e with
    | none => rfl
    | some arg =>
      have h1 : none ∈ entries := by simpa using h
      simp [echoArgs, ih h1]

theorem run_null_entry (self : Arguments) (argc : Int) (argv : Nat → Option String)
    (functor : Handler) (params : List Param) (hargc : 0 < argc)
    (hnull : none ∈ argvEntries argc argv) :
    self.run argc argv functor params =
      { cerr := (echoArgs (argvEntries argc argv)).1
        output := ["Error: argv has null value.\n"], calls := []
        term := .returned 64 } := by
  have h1 : ¬ argc ≤ 0 := by omega
  simp [Arguments.run, h1, checkArgs_of_null _ hnull false, ExitStatus.toInt]

/-! ## The diagnostics of the binder and the registry the loop uses -/

theorem diagnosticsOf_congr (optionValues optionValues1 : StrMap)
    (h : ∀ key, optionValues1.values key = optionValues.values key) (param : Param) :
    diagnosticsOf optionValues1 param = diagnosticsOf optionValues param := by
  cases param with
  | option p => simp [diagnosticsOf, paramValues_eq, h]
  | flag p => rfl

theorem runParams_output (positionalArgs : List String) (setFlags : StrSet)
    (params : List Param) :
    ∀ (output : List String) (optionValues : StrMap) (functor : BoundFunctor),
      (∀ p, Param.option p ∈ params → paramValues optionValues p ≠ []) →
      (runParams output optionValues positionalArgs setFlags functor params).output
        = output ++ params.flatMap (diagnosticsOf optionValues) := by
  induction params with
  | nil =>
    intro output optionValues functor _
    simp [runParams]
  | cons param params ih =>
    intro output optionValues functor hvals
    cases param with
    | option p =>
      have hp := hvals p (List.mem_cons_self _ _)
      cases hpv : paramValues optionValues p with
      | nil => exact absurd hpv hp
      | cons front more =>
        have hcongr := mergeValues_fst_values optionValues p
        have hrec := ih (output ++ cardinalityLines p (front :: more))
          (mergeValues optionValues p).1 (bindFirst functor (.value front)) (by
            intro q hq
            rw [paramValues_eq]
            simp only [hcongr]
            rw [← paramValues_eq]
            exact hvals q (List.mem_cons_of_mem _ hq))
        simp only [runParams, hpv]
        rw [hrec, List.flatMap_cons, List.append_assoc]
        congr 1
        congr 1
        · simp [diagnosticsOf, hpv]
        · exact List.flatMap_congr (fun q _ => diagnosticsOf_congr _ _ hcongr q)
    | flag p =>
      have hrec := ih output optionValues
        (bindFirst functor (.flag (flagValue setFlags p))) (by
          intro q hq
          exact hvals q (List.mem_cons_of_mem _ hq))
      simp only [runParams]
      rw [hrec, List.flatMap_cons]
      simp [diagnosticsOf]

theorem readNames_ok_inv (params : List Param) (optionNames allNames : StrSet)
    (h : readNames [] [] params = .ok (optionNames, allNames)) :
    DuplicateFree params ∧ optionNames = optionAliases params
      ∧ allNames = allAliases params := by
  have hdup : DuplicateFree params := by
    by_contra hnot
    obtain ⟨name, hname⟩ := readNames_not_duplicateFree params hnot
    rw [hname] at h
    simp at h
  rw [readNames_duplicateFree params hdup] at h
  simp only [Except.ok.injEq, Prod.mk.injEq] at h
  exact ⟨hdup, h.1.symm, h.2.symm⟩

theorem paramValues_eq_capturedValues (optionNames allNames : StrSet) (tokens : List String)
    (st : ScanState) (p : ParamName)
    (hscan : (scanArgs optionNames allNames ScanState.initial tokens).state? = some st) :
    paramValues st.optionValues p = capturedValues optionNames allNames tokens p := by
  rw [paramValues_eq, capturedValues]
  congr 1
  funext name
  have h := scanArgs_values _ _ _ _ st hscan name
  simpa [ScanState.initial, StrMap.values] using h

/-! ## The positional arguments the loop collects -/

theorem version_not_mem_names (p : ParamName) (h : p.longName ≠ versionOption) :
    versionOption ∉ p.names := by
  cases p with
  | ofLong longName =>
    rw [names_ofLong, List.mem_singleton]
    exact fun e => h e.symm
  | ofShortLong shortName longName =>
    rw [names_ofShortLong]
    simp only [List.mem_cons, List.mem_singleton, List.not_mem_nil, or_false, not_or]
    refine ⟨?_, fun e => h e.symm⟩
    intro e
    have h1 := congrArg String.length e
    simp [versionOption, String.length, String.push] at h1

/-! ## What the loop keeps true of its containers -/

theorem emplaceBack_entries (optionNames : StrSet) (m : StrMap) (name value : String)
    (hname : name ∈ optionNames)
    (hm : ∀ entry ∈ m, entry.1 ∈ optionNames ∧ entry.2 ≠ []) :
    ∀ entry ∈ m.emplaceBack name value, entry.1 ∈ optionNames ∧ entry.2 ≠ [] := by
  induction m with
  | nil =>
    intro entry he
    simp only [StrMap.emplaceBack, List.mem_singleton] at he
    subst he
    exact ⟨hname, by simp⟩
  | cons e m ih =>
    obtain ⟨key, vs⟩ := e
    intro entry he
    by_cases hk : key = name
    · simp only [StrMap.emplaceBack, hk, if_true, List.mem_cons] at he
      rcases he with he | he
      · subst he
        exact ⟨hname, by simp⟩
      · exact hm entry (List.mem_cons_of_mem _ he)
    · simp only [StrMap.emplaceBack, hk, if_false, List.mem_cons] at he
      rcases he with he | he
      · subst he
        exact hm (key, vs) (List.mem_cons_self _ _)
      · exact ih (fun e1 h1 => hm e1 (List.mem_cons_of_mem _ h1)) entry he

theorem mem_emplace (s : StrSet) (name x : String) :
    x ∈ (s.emplace name).1 ↔ x ∈ s ∨ x = name := by
  unfold StrSet.emplace
  by_cases h : name ∈ s
  · simp only [h, if_true]
    constructor
    · exact Or.inl
    · rintro (h1 | h1)
      · exact h1
      · exact h1 ▸ h
  · simp [h]

theorem scanArgs_invariant (optionNames allNames : StrSet) (st : ScanState)
    (tokens : List String) :
    ScanInvariant optionNames allNames st →
      ∀ st1, scanArgs optionNames allNames st tokens = .exhausted st1 →
        ScanInvariant optionNames allNames st1 := by
  induction st, tokens using scanArgs.induct optionNames allNames with
  | case1 st =>
    intro hinv st1 h
    simp only [scanArgs, ScanResult.exhausted.injEq] at h
    exact h ▸ hinv
  | case2 st rest0 => intro _ st1 h; simp [scanArgs_terminator] at h
  | case3 st currentArg rest0 h1 h2 h3 =>
    intro _ st1 h
    simp [scanArgs_unknown _ _ _ _ _ h1 h2 h3] at h
  | case4 st currentArg h1 h2 h3 h4 =>
    intro _ st1 h
    simp [scanArgs_option_nil _ _ _ _ h1 h2 h3 h4] at h
  | case5 st currentArg h1 h2 h3 h4 value rest0 ih =>
    intro hinv st1 h
    rw [scanArgs_option_cons _ _ _ _ _ _ h1 h2 h3 h4] at h
    have hmem : currentArg ∈ optionNames := by
      by_contra hn
      exact h4 ((count_eq_zero_iff _ _).2 hn)
    exact ih ⟨emplaceBack_entries optionNames _ _ _ hmem hinv.1, hinv.2.1, hinv.2.2⟩ st1 h
  | case6 st currentArg rest0 h1 h2 h3 h4 ih =>
    intro hinv st1 h
    rw [scanArgs_flag _ _ _ _ _ h1 h2 h3 h4] at h
    have hnot : currentArg ∉ optionNames := by
      simp only [ne_eq, not_not] at h4
      exact (count_eq_zero_iff _ _).1 h4
    have hall : currentArg ∈ allNames := by
      by_contra hn
      exact h3 ((count_eq_zero_iff _ _).2 hn)
    refine ih ⟨hinv.1, ?_, hinv.2.2⟩ st1 h
    intro name hname
    rcases (mem_emplace _ _ _).1 hname with hn | hn
    · exact hinv.2.1 name hn
    · exact hn ▸ ⟨hall, hnot⟩
  | case7 st currentArg rest0 h1 h2 ih =>
    intro hinv st1 h
    rw [scanArgs_positional _ _ _ _ _ h1 h2] at h
    refine ih ⟨hinv.1, hinv.2.1, ?_⟩ st1 h
    intro token htoken
    rcases List.mem_append.1 htoken with ht | ht
    · exact hinv.2.2 token ht
    · rw [List.mem_singleton] at ht
      rw [ht]
      simpa using h2

theorem scanArgs_terminated_split (optionNames allNames : StrSet) (st : ScanState)
    (tokens : List String) :
    ∀ st1, scanArgs optionNames allNames st tokens = .terminated st1 →
      ∃ before after st0, tokens = before ++ "--" :: after
        ∧ scanArgs optionNames allNames st before = .exhausted st0
        ∧ st1 = { optionValues := st0.optionValues
                  positionalArgs := st0.positionalArgs ++ "--" :: after
                  setFlags := st0.setFlags } := by
  induction st, tokens using scanArgs.induct optionNames allNames with
  | case1 st => intro st1 h; simp [scanArgs] at h
  | case2 st rest0 =>
    intro st1 h
    simp only [scanArgs_terminator, ScanResult.terminated.injEq] at h
    exact ⟨[], rest0, st, rfl, by simp [scanArgs], h.symm⟩
  | case3 st currentArg rest0 h1 h2 h3 =>
    intro st1 h
    simp [scanArgs_unknown _ _ _ _ _ h1 h2 h3] at h
  | case4 st currentArg h1 h2 h3 h4 =>
    intro st1 h
    simp [scanArgs_option_nil _ _ _ _ h1 h2 h3 h4] at h
  | case5 st currentArg h1 h2 h3 h4 value rest0 ih =>
    intro st1 h
    rw [scanArgs_option_cons _ _ _ _ _ _ h1 h2 h3 h4] at h
    obtain ⟨before, after, st0, hsplit, hscan, hst⟩ := ih st1 h
    refine ⟨currentArg :: value :: before, after, st0, by simp [hsplit], ?_, hst⟩
    rw [scanArgs_option_cons _ _ _ _ _ _ h1 h2 h3 h4]
    exact hscan
  | case6 st currentArg rest0 h1 h2 h3 h4 ih =>
    intro st1 h
    rw [scanArgs_flag _ _ _ _ _ h1 h2 h3 h4] at h
    obtain ⟨before, after, st0, hsplit, hscan, hst⟩ := ih st1 h
    refine ⟨currentArg :: before, after, st0, by simp [hsplit], ?_, hst⟩
    rw [scanArgs_flag _ _ _ _ _ h1 h2 h3 h4]
    exact hscan
  | case7 st currentArg rest0 h1 h2 ih =>
    intro st1 h
    rw [scanArgs_positional _ _ _ _ _ h1 h2] at h
    obtain ⟨before, after, st0, hsplit, hscan, hst⟩ := ih st1 h
    refine ⟨currentArg :: before, after, st0, by simp [hsplit], ?_, hst⟩
    rw [scanArgs_positional _ _ _ _ _ h1 h2]
    exact hscan

theorem scanInvariant_initial (optionNames allNames : StrSet) :
    ScanInvariant optionNames allNames ScanState.initial := by
  simp [ScanInvariant, ScanState.initial]

/-! ## Units of different descriptors commute -/

theorem names_disjoint_of_ne (params : List Param) (hdup : DuplicateFree params)
    (d1 d2 : Param) (h1 : d1 ∈ params) (h2 : d2 ∈ params) (hne : d1 ≠ d2) (x : String)
    (hx1 : x ∈ d1.paramName.names) : x ∉ d2.paramName.names := by
  induction params with
  | nil => simp at h1
  | cons q params ih =>
    unfold DuplicateFree at hdup
    rw [allAliases_cons] at hdup
    have hd := List.nodup_append.1 hdup
    rcases List.mem_cons.1 h1 with e1 | e1
    · rcases List.mem_cons.1 h2 with e2 | e2
      · exact absurd (e1.trans e2.symm) hne
      · subst e1
        intro hx2
        exact hd.2.2 hx1 ((mem_allAliases params x).2 ⟨d2, e2, hx2⟩)
    · rcases List.mem_cons.1 h2 with e2 | e2
      · subst e2
        intro hx2
        exact hd.2.2 hx2 ((mem_allAliases params x).2 ⟨d1, e1, hx1⟩)
      · exact ih hd.2.1 e1 e2

theorem scanArgs_unit (params : List Param) (hdup : DuplicateFree params) (d : Param)
    (unit : List String) (hd : d ∈ params) (hunit : isUnitOf d unit = true)
    (hterm : "--" ∉ unit) (st : ScanState) (rest : List String) :
    scanArgs (optionAliases params) (allAliases params) st (unit ++ rest)
      = scanArgs (optionAliases params) (allAliases params) (unitEffect d unit st) rest := by
  cases d with
  | option p =>
    match unit, hunit, hterm with
    | [name, value], hunit, hterm =>
      simp only [isUnitOf, decide_eq_true_eq] at hunit
      have hne : name ≠ "--" := fun e => hterm (by simp [e])
      have hall : StrSet.count (allAliases params) name ≠ 0 := by
        rw [ne_eq, count_eq_zero_iff, not_not, mem_allAliases]
        exact ⟨Param.option p, hd, hunit⟩
      have hopt : StrSet.count (optionAliases params) name ≠ 0 := by
        rw [ne_eq, count_eq_zero_iff, not_not]
        exact mem_optionAliases params p name hd hunit
      simp only [List.cons_append, List.nil_append, unitEffect]
      rw [scanArgs_option_cons _ _ _ _ _ _ hne (startsWithDash_of_mem_names p name hunit)
        hall hopt]
  | flag f =>
    match unit, hunit, hterm with
    | [name], hunit, hterm =>
      simp only [isUnitOf, decide_eq_true_eq] at hunit
      have hne : name ≠ "--" := fun e => hterm (by simp [e])
      have hall : StrSet.count (allAliases params) name ≠ 0 := by
        rw [ne_eq, count_eq_zero_iff, not_not, mem_allAliases]
        exact ⟨Param.flag f, hd, hunit⟩
      have hopt : ¬ StrSet.count (optionAliases params) name ≠ 0 := by
        rw [ne_eq, not_not, count_eq_zero_iff]
        exact flag_alias_not_mem_optionAliases params hdup f hd name hunit
      simp only [List.cons_append, List.nil_append, unitEffect]
      rw [scanArgs_flag _ _ _ _ _ hne (startsWithDash_of_mem_names f name hunit) hall hopt]

theorem unitEffect_comm (params : List Param) (hdup : DuplicateFree params)
    (d1 d2 : Param) (unit1 unit2 : List String) (h1 : d1 ∈ params) (h2 : d2 ∈ params)
    (hne : d1 ≠ d2) (hu1 : isUnitOf d1 unit1 = true) (hu2 : isUnitOf d2 unit2 = true)
    (st : ScanState) :
    SameContents (unitEffect d2 unit2 (unitEffect d1 unit1 st))
      (unitEffect d1 unit1 (unitEffect d2 unit2 st)) := by
  cases d1 with
  | option p1 =>
    match unit1, hu1 with
    | [name1, value1], hu1 =>
      simp only [isUnitOf, decide_eq_true_eq] at hu1
      cases d2 with
      | option p2 =>
        match unit2, hu2 with
        | [name2, value2], hu2 =>
          simp only [isUnitOf, decide_eq_true_eq] at hu2
          have hnames : name1 ≠ name2 := by
            intro e
            exact names_disjoint_of_ne params hdup _ _ h1 h2 hne name1 hu1 (e ▸ hu2)
          refine ⟨?_, fun _ => Iff.rfl, rfl⟩
          intro key
          simp only [unitEffect, emplaceBack_values]
          by_cases hk1 : name1 = key
          · have hk2 : ¬ name2 = key := fun e => hnames (hk1.trans e.symm)
            simp [hk1, hk2]
          · simp [hk1]
      | flag f2 =>
        match unit2, hu2 with
        | [name2], hu2 => exact ⟨fun _ => rfl, fun _ => Iff.rfl, rfl⟩
  | flag f1 =>
    match unit1, hu1 with
    | [name1], hu1 =>
      cases d2 with
      | option p2 =>
        match unit2, hu2 with
        | [name2, value2], hu2 => exact ⟨fun _ => rfl, fun _ => Iff.rfl, rfl⟩
      | flag f2 =>
        match unit2, hu2 with
        | [name2], hu2 =>
          refine ⟨fun _ => rfl, ?_, rfl⟩
          intro name
          simp only [unitEffect, mem_emplace]
          constructor
          · rintro ((h | h) | h)
            · exact Or.inl (Or.inl h)
            · exact Or.inr h
            · exact Or.inl (Or.inr h)
          · rintro ((h | h) | h)
            · exact Or.inl (Or.inl h)
            · exact Or.inr h
            · exact Or.inl (Or.inr h)

theorem count_congr (s s1 : StrSet) (h : ∀ name, name ∈ s ↔ name ∈ s1) (name : String) :
    s.count name = s1.count name := by
  unfold StrSet.count
  by_cases hm : name ∈ s
  · simp [hm, (h name).1 hm]
  · have hm1 : name ∉ s1 := fun h1 => hm ((h name).2 h1)
    simp [hm, hm1]

theorem flagValue_congr (s s1 : StrSet) (h : ∀ name, name ∈ s ↔ name ∈ s1) (flag : ParamName) :
    flagValue s flag = flagValue s1 flag := by
  have hassign : assignFlag s = assignFlag s1 := by
    funext name b
    simp [assignFlag, count_congr s s1 h name]
  simp [flagValue, hassign]

theorem runParams_congr (positionalArgs : List String) (setFlags setFlags1 : StrSet)
    (hflags : ∀ name, name ∈ setFlags ↔ name ∈ setFlags1) (params : List Param) :
    ∀ (output : List String) (optionValues optionValues1 : StrMap) (functor : BoundFunctor),
      (∀ key, optionValues.values key = optionValues1.values key) →
      runParams output optionValues positionalArgs setFlags functor params
        = runParams output optionValues1 positionalArgs setFlags1 functor params := by
  induction params with
  | nil =>
    intro output optionValues optionValues1 functor _
    simp [runParams]
  | cons param params ih =>
    intro output optionValues optionValues1 functor hvalues
    cases param with
    | option p =>
      have hpv : paramValues optionValues p = paramValues optionValues1 p := by
        simp [paramValues_eq, hvalues]
      cases hv : paramValues optionValues1 p with
      | nil =>
        simp only [runParams, hpv, hv]
      | cons front more =>
        simp only [runParams, hpv, hv]
        exact ih _ _ _ _ (by
          intro key
          rw [mergeValues_fst_values, mergeValues_fst_values]
          exact hvalues key)
    | flag f =>
      simp only [runParams, flagValue_congr setFlags setFlags1 hflags f]
      exact ih _ _ _ _ hvalues

theorem scanArgs_sameContents (optionNames allNames : StrSet) (a : ScanState)
    (tokens : List String) :
    ∀ b, SameContents a b →
      (∀ line, scanArgs optionNames allNames a tokens = .usage line →
          scanArgs optionNames allNames b tokens = .usage line)
        ∧ (∀ a1, (scanArgs optionNames allNames a tokens).state? = some a1 →
            ∃ b1, (scanArgs optionNames allNames b tokens).state? = some b1
              ∧ SameContents a1 b1) := by
  induction a, tokens using scanArgs.induct optionNames allNames with
  | case1 a =>
    intro b hab
    refine ⟨fun line h => by simp [scanArgs] at h, ?_⟩
    intro a1 h
    simp only [scanArgs, ScanResult.state?, Option.some.injEq] at h
    exact ⟨b, by simp [scanArgs, ScanResult.state?], h ▸ hab⟩
  | case2 a rest0 =>
    intro b hab
    refine ⟨fun line h => by simp [scanArgs_terminator] at h, ?_⟩
    intro a1 h
    simp only [scanArgs_terminator, ScanResult.state?, Option.some.injEq] at h
    refine ⟨{ optionValues := b.optionValues
              positionalArgs := b.positionalArgs ++ "--" :: rest0
              setFlags := b.setFlags },
      by simp only [scanArgs_terminator, ScanResult.state?], ?_⟩
    subst h
    exact ⟨hab.1, hab.2.1, by simp [hab.2.2]⟩
  | case3 a currentArg rest0 h1 h2 h3 =>
    intro b _
    rw [scanArgs_unknown _ _ a _ _ h1 h2 h3, scanArgs_unknown _ _ b _ _ h1 h2 h3]
    exact ⟨fun line h => h, fun a1 h => by simp [ScanResult.state?] at h⟩
  | case4 a currentArg h1 h2 h3 h4 =>
    intro b _
    rw [scanArgs_option_nil _ _ a _ h1 h2 h3 h4, scanArgs_option_nil _ _ b _ h1 h2 h3 h4]
    exact ⟨fun line h => h, fun a1 h => by simp [ScanResult.state?] at h⟩
  | case5 a currentArg h1 h2 h3 h4 value rest0 ih =>
    intro b hab
    rw [scanArgs_option_cons _ _ a _ _ _ h1 h2 h3 h4,
      scanArgs_option_cons _ _ b _ _ _ h1 h2 h3 h4]
    refine ih _ ⟨?_, hab.2.1, hab.2.2⟩
    intro key
    simp only [emplaceBack_values, hab.1 key]
  | case6 a currentArg rest0 h1 h2 h3 h4 ih =>
    intro b hab
    rw [scanArgs_flag _ _ a _ _ h1 h2 h3 h4, scanArgs_flag _ _ b _ _ h1 h2 h3 h4]
    refine ih _ ⟨hab.1, ?_, hab.2.2⟩
    intro name
    simp only [mem_emplace, hab.2.1 name]
  | case7 a currentArg rest0 h1 h2 ih =>
    intro b hab
    rw [scanArgs_positional _ _ a _ _ h1 h2, scanArgs_positional _ _ b _ _ h1 h2]
    exact ih _ ⟨hab.1, hab.2.1, by simp [hab.2.2]⟩

/-- Several values for one option.  For a well-formed `argv` without `--help` that
the loop (with the registry `readNames` built) scans without a usage error, let the
`k`-th descriptor be the option `p`, and let `p` receive two or more values in total.  Then the vector
`paramValues` of `p` is the merged list: the values captured under its short alias
in the order of `argv`, then those captured under its long name in the order of
`argv`, none lost.  And when the other declared options have a value too, `run`
writes "Error: Multiple values for <longName>", calls the handler once, with the
first element of the merged list as its `k`-th bound value, and returns its status. -/
theorem multiple_values_first_bound (self : Arguments) (argc : Int)
    (argv : Nat → Option String) (functor : Handler) (params : List Param)
    (optionNames allNames : StrSet) (st : ScanState) (k : Nat) (p : ParamName)
    (hnames : readNames [] [] params = .ok (optionNames, allNames))
    (hwf : WellFormed argc argv) (hhelp : helpOption ∉ argStrings argc argv)
    (hscan : (scanArgs optionNames allNames ScanState.initial
      (argStrings argc argv).tail).state? = some st)
    (hk : params[k]? = some (Param.option p))
    (hmany : 2 ≤ (capturedValues optionNames allNames (argStrings argc argv).tail p).length) :
    paramValues st.optionValues p
        = capturedValues optionNames allNames (argStrings argc argv).tail p
      ∧ ((∀ q, Param.option q ∈ params → q ≠ p → paramValues st.optionValues q ≠ []) →
        ("Error: Multiple values for " ++ p.longName ++ "\n")
            ∈ (self.run argc argv functor params).output
          ∧ ∃ bound, (self.run argc argv functor params).calls = [⟨bound, st.positionalArgs⟩]
            ∧ bound[k]? = (capturedValues optionNames allNames
                (argStrings argc argv).tail p).head?.map Bound.value
            ∧ (self.run argc argv functor params).term
                = .returned (functor bound st.positionalArgs).toInt) := by
  have hpv := paramValues_eq_capturedValues optionNames allNames _ st p hscan
  refine ⟨hpv, ?_⟩
  intro hothers
  have hp : Param.option p ∈ params := List.getElem?_mem hk
  have hvals : ∀ q, Param.option q ∈ params → paramValues st.optionValues q ≠ [] := by
    intro q hq
    by_cases hqp : q = p
    · rw [hqp, hpv]
      intro hnil
      rw [hnil] at hmany
      simp at hmany
    · exact hothers q hq hqp
  have hrun := run_bind self argc argv functor params _ _ st hwf hhelp hnames hscan
  obtain ⟨bound, hb, hc, hs⟩ := runParams_invokes st.positionalArgs st.setFlags params []
    st.optionValues { handler := functor, bound := [] } hvals
  have hout := runParams_output st.positionalArgs st.setFlags params []
    st.optionValues { handler := functor, bound := [] } hvals
  refine ⟨?_, bound, ?_, ?_, ?_⟩
  · rw [hrun]
    simp only [hout, List.nil_append, List.mem_flatMap]
    refine ⟨Param.option p, hp, ?_⟩
    have hlen : (paramValues st.optionValues p).length > 1 := by
      rw [hpv]
      omega
    simp [diagnosticsOf, cardinalityLines, multipleValuesLine, hlen]
  · rw [hrun]
    simpa using hc
  · have h1 : (bound.map some)[k]? = (params.map (bindingOf st.optionValues st.setFlags))[k]? := by
      rw [hb]
    rw [List.getElem?_map, List.getElem?_map, hk] at h1
    simp only [Option.map_some', bindingOf, hpv] at h1
    cases hbk : bound[k]? with
    | none => rw [hbk] at h1; simp at h1
    | some b =>
      rw [hbk] at h1
      simp only [Option.map_some', Option.some.injEq] at h1
      exact h1
  · rw [hrun]
    simp only [hs]
    simp

/-- Several values for one option, at `prog --out a -o b --out c` with the option
`-o` / `--out` declared: the merged list is `b`, `a`, `c`, and `b` is bound. -/
theorem multiple_values_first_bound_witness :
    paramValues [("--out", ["a", "c"]), ("-o", ["b"])] (.ofShortLong 'o' "out")
        = capturedValues ["-o", "--out"] ["-o", "--out"]
            (argStrings 7 (argvOf [some "prog", some "--out", some "a", some "-o", some "b",
              some "--out", some "c"])).tail (.ofShortLong 'o' "out")
      ∧ capturedValues ["-o", "--out"] ["-o", "--out"]
            (argStrings 7 (argvOf [some "prog", some "--out", some "a", some "-o", some "b",
              some "--out", some "c"])).tail (.ofShortLong 'o' "out") = ["b", "a", "c"]
      ∧ ("Error: Multiple values for " ++ (ParamName.ofShortLong 'o' "out").longName ++ "\n")
          ∈ (Arguments.run ⟨"", ""⟩ 7 (argvOf [some "prog", some "--out", some "a", some "-o",
              some "b", some "--out", some "c"]) okHandler
              [.option (.ofShortLong 'o' "out")]).output
      ∧ ∃ bound, (Arguments.run ⟨"", ""⟩ 7 (argvOf [some "prog", some "--out", some "a",
              some "-o", some "b", some "--out", some "c"]) okHandler
              [.option (.ofShortLong 'o' "out")]).calls = [⟨bound, []⟩]
          ∧ bound[0]? = (capturedValues ["-o", "--out"] ["-o", "--out"]
              (argStrings 7 (argvOf [some "prog", some "--out", some "a", some "-o", some "b",
                some "--out", some "c"])).tail (.ofShortLong 'o' "out")).head?.map Bound.value
          ∧ (Arguments.run ⟨"", ""⟩ 7 (argvOf [some "prog", some "--out", some "a",
              some "-o", some "b", some "--out", some "c"]) okHandler
              [.option (.ofShortLong 'o' "out")]).term
                = .returned (okHandler bound []).toInt :=
  have h := multiple_values_first_bound ⟨"", ""⟩ 7
    (argvOf [some "prog", some "--out", some "a", some "-o", some "b", some "--out", some "c"])
    okHandler [.option (.ofShortLong 'o' "out")] ["-o", "--out"] ["-o", "--out"]
    { optionValues := [("--out", ["a", "c"]), ("-o", ["b"])], positionalArgs := []
      setFlags := [] }
    0 (.ofShortLong 'o' "out")
    rfl
    ⟨by decide, fun index h => by
      have h1 : index < 7 := by omega
      interval_cases index <;> simp [argvOf]⟩
    (by decide) (by decide) (by decide) (by decide)
  have h2 := h.2 (by
    intro q hq hne
    simp only [List.mem_singleton, Param.option.injEq] at hq
    exact absurd hq hne)
  ⟨h.1, by decide, h2.1, h2.2⟩

/-! ## The claims -/

/-- C1 (the code departs from the claim): for the flag declared as `-v` / `--verbose`
and the arguments `prog -v`, where the short alias alone occurs, the loop puts `-v`
into `setFlags`, but `flagValue` ends as the test of the long name, visited last:
the handler is called with the boolean `false`.  The claim requires `true`. -/
theorem flag_short_alias_alone_binds_false (self : Arguments) (functor : Handler) :
    scanTokens [.flag (.ofShortLong 'v' "verbose")] ["-v"]
        = .exhausted { optionValues := [], positionalArgs := [], setFlags := ["-v"] }
      ∧ flagValue ["-v"] (.ofShortLong 'v' "verbose") = false
      ∧ (self.run 2 (argvOf [some "prog", some "-v"]) functor
          [.flag (.ofShortLong 'v' "verbose")]).calls = [⟨[.flag false], []⟩] := by
  exact ⟨rfl, rfl, rfl⟩

/-- C2 (the code departs from the claim): for the arguments `prog a -- -x b` and no
descriptors the handler is called with the positional arguments `a`, `--`, `-x`,
`b`: the terminator itself is one of them; the claim requires `a`, `-x`, `b`. -/
theorem terminator_is_positional (self : Arguments) (functor : Handler) :
    (self.run 5 (argvOf [some "prog", some "a", some "--", some "-x", some "b"]) functor
      []).calls = [⟨[], ["a", "--", "-x", "b"]⟩] := by
  rfl

/-- C4: when `argc > 0`, no entry `argv[0 .. argc)` is null and some entry is exactly
`--help`, then for every descriptor list (duplicate-free or not) and whatever the
other tokens are, `run` returns 0 (`OK`) and the handler is not called. -/
theorem help_returns_ok (self : Arguments) (argc : Int) (argv : Nat → Option String)
    (functor : Handler) (params : List Param) (hargc : 0 < argc)
    (hnull : ∀ index : Nat, (index : Int) < argc → argv index ≠ none)
    (hhelp : ∃ index : Nat, (index : Int) < argc ∧ argv index = some "--help") :
    (self.run argc argv functor params).term = .returned 0
      ∧ (self.run argc argv functor params).calls = [] := by
  obtain ⟨index, hlt, hat⟩ := hhelp
  have hmem : helpOption ∈ argStrings argc argv := by
    simp only [argStrings, argvEntries, List.mem_filterMap, List.mem_map, List.mem_range, id]
    exact ⟨some "--help", ⟨index, by omega, hat⟩, rfl⟩
  rw [run_help self argc argv functor params ⟨hargc, hnull⟩ hmem]
  exact ⟨rfl, rfl⟩

/-- C4, at `prog --bogus --help --` with a descriptor list that declares the alias
`--x` twice. -/
theorem help_returns_ok_witness :
    (Arguments.run ⟨"", ""⟩ 4
        (argvOf [some "prog", some "--bogus", some "--help", some "--"]) okHandler
        [.option (.ofLong "x"), .flag (.ofLong "x")]).term = .returned 0
      ∧ (Arguments.run ⟨"", ""⟩ 4
        (argvOf [some "prog", some "--bogus", some "--help", some "--"]) okHandler
        [.option (.ofLong "x"), .flag (.ofLong "x")]).calls = [] :=
  help_returns_ok ⟨"", ""⟩ 4 (argvOf [some "prog", some "--bogus", some "--help", some "--"])
    okHandler [.option (.ofLong "x"), .flag (.ofLong "x")] (by decide)
    (fun index h => by
      have h1 : index < 4 := by omega
      interval_cases index <;> simp [argvOf])
    ⟨2, by decide, rfl⟩

/-- C5: for a duplicate-free descriptor list and a well-formed `argv` without
`--help`, let `tok` be a token that the loop reaches (the loop run on the tokens
before it comes to their end: no usage error, no `--`, no option waiting for its
value).  If `tok` begins with `-`, is not `--` and is not an alias of any declared
descriptor, `run` writes the unknown-option line, returns 64 (`USAGE`) and does not
call the handler. -/
theorem unknown_option_returns_usage (self : Arguments) (argc : Int)
    (argv : Nat → Option String) (functor : Handler) (params : List Param)
    (before after : List String) (tok : String) (st : ScanState)
    (hdup : DuplicateFree params) (hwf : WellFormed argc argv)
    (hhelp : helpOption ∉ argStrings argc argv)
    (hsplit : (argStrings argc argv).tail = before ++ tok :: after)
    (hbefore : scanTokens params before = .exhausted st)
    (hterm : tok ≠ "--") (hdash : startsWithDash tok = true)
    (hunknown : ∀ param ∈ params, tok ∉ param.paramName.names) :
    (self.run argc argv functor params).term = .returned 64
      ∧ (self.run argc argv functor params).calls = []
      ∧ (self.run argc argv functor params).output = ["Error: Unknown option " ++ tok ++ "\n"] := by
  have hcount : StrSet.count (allAliases params) tok = 0 := by
    rw [count_eq_zero_iff, mem_allAliases]
    rintro ⟨param, hparam, hmem⟩
    exact hunknown param hparam hmem
  have hscan : scanArgs (optionAliases params) (allAliases params) ScanState.initial
      (argStrings argc argv).tail = .usage ("Error: Unknown option " ++ tok ++ "\n") := by
    rw [hsplit, scanArgs_append _ _ _ _ st _ hbefore,
      scanArgs_unknown _ _ _ _ _ hterm hdash hcount]
  rw [run_usage self argc argv functor params _ _ _ hwf hhelp
    (readNames_duplicateFree params hdup) hscan]
  exact ⟨rfl, rfl, rfl⟩

/-- C5, at `prog -v file -` with the flag `-v` / `--verbose` declared: the lone `-`
is an unknown option. -/
theorem unknown_option_returns_usage_witness :
    (Arguments.run ⟨"", ""⟩ 4 (argvOf [some "prog", some "-v", some "file", some "-"])
        okHandler [.flag (.ofShortLong 'v' "verbose")]).term = .returned 64
      ∧ (Arguments.run ⟨"", ""⟩ 4 (argvOf [some "prog", some "-v", some "file", some "-"])
        okHandler [.flag (.ofShortLong 'v' "verbose")]).calls = []
      ∧ (Arguments.run ⟨"", ""⟩ 4 (argvOf [some "prog", some "-v", some "file", some "-"])
        okHandler [.flag (.ofShortLong 'v' "verbose")]).output
          = ["Error: Unknown option " ++ "-" ++ "\n"] :=
  unknown_option_returns_usage ⟨"", ""⟩ 4
    (argvOf [some "prog", some "-v", some "file", some "-"]) okHandler
    [.flag (.ofShortLong 'v' "verbose")] ["-v", "file"] [] "-"
    { optionValues := [], positionalArgs := ["file"], setFlags := ["-v"] }
    (by decide)
    ⟨by decide, fun index h => by
      have h1 : index < 4 := by omega
      interval_cases index <;> simp [argvOf]⟩
    (by decide) (by decide) (by decide) (by decide) (by decide) (by decide)

/-- C6: for a duplicate-free descriptor list and a well-formed `argv` without
`--help`, if the last token `argv[argc-1]` is reached by the loop (the loop run on
the tokens before it comes to their end: no usage error, no `--`, no option waiting
for its value) and is an alias of a declared `Option` (and so is handled by the
option branch, not as the terminator `--`), then `run` writes the missing-value
line, returns 64 (`USAGE`) and does not call the handler. -/
theorem option_without_value_returns_usage (self : Arguments) (argc : Int)
    (argv : Nat → Option String) (functor : Handler) (params : List Param)
    (before : List String) (name : String) (st : ScanState) (p : ParamName)
    (hdup : DuplicateFree params) (hwf : WellFormed argc argv)
    (hhelp : helpOption ∉ argStrings argc argv)
    (hsplit : (argStrings argc argv).tail = before ++ [name])
    (hbefore : scanTokens params before = .exhausted st)
    (hp : Param.option p ∈ params) (hname : name ∈ p.names) (hterm : name ≠ "--") :
    (self.run argc argv functor params).term = .returned 64
      ∧ (self.run argc argv functor params).calls = []
      ∧ (self.run argc argv functor params).output
          = ["Error: No value supplied for option " ++ name ++ "\n"] := by
  have hall : StrSet.count (allAliases params) name ≠ 0 := by
    rw [ne_eq, count_eq_zero_iff, not_not, mem_allAliases]
    exact ⟨Param.option p, hp, hname⟩
  have hopt : StrSet.count (optionAliases params) name ≠ 0 := by
    rw [ne_eq, count_eq_zero_iff, not_not]
    exact mem_optionAliases params p name hp hname
  have hscan : scanArgs (optionAliases params) (allAliases params) ScanState.initial
      (argStrings argc argv).tail
        = .usage ("Error: No value supplied for option " ++ name ++ "\n") := by
    rw [hsplit, scanArgs_append _ _ _ _ st _ hbefore,
      scanArgs_option_nil _ _ _ _ hterm (startsWithDash_of_mem_names p name hname) hall hopt]
  rw [run_usage self argc argv functor params _ _ _ hwf hhelp
    (readNames_duplicateFree params hdup) hscan]
  exact ⟨rfl, rfl, rfl⟩

/-- C6, at `prog -o a file -o` with the option `-o` / `--out` declared. -/
theorem option_without_value_returns_usage_witness :
    (Arguments.run ⟨"", ""⟩ 5
        (argvOf [some "prog", some "-o", some "a", some "file", some "-o"])
        okHandler [.option (.ofShortLong 'o' "out")]).term = .returned 64
      ∧ (Arguments.run ⟨"", ""⟩ 5
        (argvOf [some "prog", some "-o", some "a", some "file", some "-o"])
        okHandler [.option (.ofShortLong 'o' "out")]).calls = []
      ∧ (Arguments.run ⟨"", ""⟩ 5
        (argvOf [some "prog", some "-o", some "a", some "file", some "-o"])
        okHandler [.option (.ofShortLong 'o' "out")]).output
          = ["Error: No value supplied for option " ++ "-o" ++ "\n"] :=
  option_without_value_returns_usage ⟨"", ""⟩ 5
    (argvOf [some "prog", some "-o", some "a", some "file", some "-o"]) okHandler
    [.option (.ofShortLong 'o' "out")] ["-o", "a", "file"] "-o"
    { optionValues := [("-o", ["a"])], positionalArgs := ["file"], setFlags := [] }
    (.ofShortLong 'o' "out")
    (by decide)
    ⟨by decide, fun index h => by
      have h1 : index < 5 := by omega
      interval_cases index <;> simp [argvOf]⟩
    (by decide) (by decide) (by decide) (by decide) (by decide) (by decide)

/-- C7: if `argc <= 0`, or some entry `argv[index]` with `0 <= index < argc` is null,
`run` returns 64 (`USAGE`) and does not call the handler, for every descriptor list
(duplicate-free or not) and whatever the other entries are, `--help` included. -/
theorem null_or_missing_argv_returns_usage (self : Arguments) (argc : Int)
    (argv : Nat → Option String) (functor : Handler) (params : List Param)
    (h : argc ≤ 0 ∨ ∃ index : Nat, (index : Int) < argc ∧ argv index = none) :
    (self.run argc argv functor params).term = .returned 64
      ∧ (self.run argc argv functor params).calls = [] := by
  by_cases hargc : argc ≤ 0
  · exact ⟨(run_argc_nonpositive self argc argv functor params hargc).1,
      (run_argc_nonpositive self argc argv functor params hargc).2.1⟩
  · rcases h with h | ⟨index, hlt, hat⟩
    · exact absurd h hargc
    · have hmem : none ∈ argvEntries argc argv := by
        simp only [argvEntries, List.mem_map, List.mem_range]
        exact ⟨index, by omega, hat⟩
      rw [run_null_entry self argc argv functor params (by omega) hmem]
      exact ⟨rfl, rfl⟩

/-- C7, at `argc = 3` with `argv = {"prog", "--help", null}` and the alias `--x`
declared twice. -/
theorem null_or_missing_argv_returns_usage_witness :
    (Arguments.run ⟨"", ""⟩ 3 (argvOf [some "prog", some "--help", none]) okHandler
        [.flag (.ofLong "x"), .flag (.ofLong "x")]).term = .returned 64
      ∧ (Arguments.run ⟨"", ""⟩ 3 (argvOf [some "prog", some "--help", none]) okHandler
        [.flag (.ofLong "x"), .flag (.ofLong "x")]).calls = [] :=
  null_or_missing_argv_returns_usage ⟨"", ""⟩ 3 (argvOf [some "prog", some "--help", none])
    okHandler [.flag (.ofLong "x"), .flag (.ofLong "x")] (Or.inr ⟨2, by decide, rfl⟩)

/-- C8 (as amended): for every descriptor list in which some alias string occurs
twice and every `argv` with `argc > 0`, no null entry and no `--help`, `run` throws
the `logic_error` "Duplicate name ..." instead of returning; the handler is not
called and nothing is written to the output. -/
theorem duplicate_names_throw (self : Arguments) (argc : Int) (argv : Nat → Option String)
    (functor : Handler) (params : List Param) (hdup : ¬ DuplicateFree params)
    (hwf : WellFormed argc argv) (hhelp : helpOption ∉ argStrings argc argv) :
    ∃ name, (self.run argc argv functor params).term = .threw ("Duplicate name " ++ name)
      ∧ (self.run argc argv functor params).calls = []
      ∧ (self.run argc argv functor params).output = [] := by
  obtain ⟨name, hname⟩ := readNames_not_duplicateFree params hdup
  refine ⟨name, ?_⟩
  rw [run_duplicate self argc argv functor params _ hwf hhelp hname]
  exact ⟨rfl, rfl, rfl⟩

/-- C8 (as amended), at `prog --bogus` with the flag `-x` / `--all` declared before the
option `-x` / `--exclude`. -/
theorem duplicate_names_throw_witness :
    ∃ name, (Arguments.run ⟨"", ""⟩ 2 (argvOf [some "prog", some "--bogus"]) okHandler
        [.flag (.ofShortLong 'x' "all"), .option (.ofShortLong 'x' "exclude")]).term
          = .threw ("Duplicate name " ++ name)
      ∧ (Arguments.run ⟨"", ""⟩ 2 (argvOf [some "prog", some "--bogus"]) okHandler
        [.flag (.ofShortLong 'x' "all"), .option (.ofShortLong 'x' "exclude")]).calls = []
      ∧ (Arguments.run ⟨"", ""⟩ 2 (argvOf [some "prog", some "--bogus"]) okHandler
        [.flag (.ofShortLong 'x' "all"), .option (.ofShortLong 'x' "exclude")]).output = [] :=
  duplicate_names_throw ⟨"", ""⟩ 2 (argvOf [some "prog", some "--bogus"]) okHandler
    [.flag (.ofShortLong 'x' "all"), .option (.ofShortLong 'x' "exclude")]
    (by decide)
    ⟨by decide, fun index h => by
      have h1 : index < 2 := by omega
      interval_cases index <;> simp [argvOf]⟩
    (by decide)

/-- C8 (as stated) fails: with the alias `--x` declared twice, `run` returns 64 for
`argc = 0` and returns 0 for `prog --help`; in neither case is the `logic_error`
thrown. -/
theorem duplicate_names_not_before_argv :
    ¬ DuplicateFree [.flag (.ofLong "x"), .flag (.ofLong "x")]
      ∧ (Arguments.run ⟨"", ""⟩ 0 (argvOf []) okHandler
          [.flag (.ofLong "x"), .flag (.ofLong "x")]).term = .returned 64
      ∧ (Arguments.run ⟨"", ""⟩ 2 (argvOf [some "prog", some "--help"]) okHandler
          [.flag (.ofLong "x"), .flag (.ofLong "x")]).term = .returned 0 := by
  decide

/-- C9: for a duplicate-free descriptor list `d1 .. dn` and a well-formed `argv`
without `--help` that the loop scans without a usage error, leaving the containers
`st`, if the vector `paramValues` of every declared `Option` is non-empty, then the
handler is called exactly once, with `n` bound values and then the positional
arguments of `st`; the `k`-th bound value is the one the binder fixes for `dk` (the
front of its `paramValues` for an `Option`, its `flagValue` for a `Flag`), in
declaration order; and `run` returns the handler's status. -/
theorem handler_invoked_once (self : Arguments) (argc : Int)
    (argv : Nat → Option String) (functor : Handler) (params : List Param) (st : ScanState)
    (hdup : DuplicateFree params) (hwf : WellFormed argc argv)
    (hhelp : helpOption ∉ argStrings argc argv)
    (hscan : (scanTokens params (argStrings argc argv).tail).state? = some st)
    (hvals : ∀ p, Param.option p ∈ params → paramValues st.optionValues p ≠ []) :
    ∃ bound, bound.length = params.length
      ∧ bound.map some = params.map (bindingOf st.optionValues st.setFlags)
      ∧ (self.run argc argv functor params).calls = [⟨bound, st.positionalArgs⟩]
      ∧ (self.run argc argv functor params).term
          = .returned (functor bound st.positionalArgs).toInt := by
  obtain ⟨bound, hb, hc, hs⟩ := runParams_invokes st.positionalArgs st.setFlags params []
    st.optionValues { handler := functor, bound := [] } hvals
  refine ⟨bound, ?_, hb, ?_, ?_⟩
  · have h := congrArg List.length hb
    simpa using h
  · rw [run_bind self argc argv functor params _ _ st hwf hhelp
      (readNames_duplicateFree params hdup) hscan]
    simpa using hc
  · rw [run_bind self argc argv functor params _ _ st hwf hhelp
      (readNames_duplicateFree params hdup) hscan]
    simp only [hs]
    simp

/-- C9, at `prog in --out a --verbose` with the option `-o` / `--out` declared before the
flag `-v` / `--verbose` and a handler that reports `OK`. -/
theorem handler_invoked_once_witness :
    ∃ bound, bound.length = 2
      ∧ bound.map some = [some (Bound.value "a"), some (Bound.flag true)]
      ∧ (Arguments.run ⟨"", ""⟩ 5
          (argvOf [some "prog", some "in", some "--out", some "a", some "--verbose"]) okHandler
          [.option (.ofShortLong 'o' "out"), .flag (.ofShortLong 'v' "verbose")]).calls
            = [⟨bound, ["in"]⟩]
      ∧ (Arguments.run ⟨"", ""⟩ 5
          (argvOf [some "prog", some "in", some "--out", some "a", some "--verbose"]) okHandler
          [.option (.ofShortLong 'o' "out"), .flag (.ofShortLong 'v' "verbose")]).term
            = .returned (okHandler bound ["in"]).toInt :=
  handler_invoked_once ⟨"", ""⟩ 5
    (argvOf [some "prog", some "in", some "--out", some "a", some "--verbose"]) okHandler
    [.option (.ofShortLong 'o' "out"), .flag (.ofShortLong 'v' "verbose")]
    { optionValues := [("--out", ["a"])], positionalArgs := ["in"], setFlags := ["--verbose"] }
    (by decide)
    ⟨by decide, fun index h => by
      have h1 : index < 5 := by omega
      interval_cases index <;> simp [argvOf]⟩
    (by decide) (by decide)
    (by
      intro p hp
      simp only [List.mem_cons, Param.option.injEq, List.mem_singleton, List.not_mem_nil,
        or_false, reduceCtorEq] at hp
      subst hp
      decide)

/-- C10 (the code departs from the claim): for the option `--name` declared and the
arguments `prog`, in which it does not occur, the binder writes "Error: No value for
--name" and then takes `paramValues.front()` of the empty vector; the behaviour is
undefined and the handler is not called.  The claim requires that the first element
of an empty list is never taken and that the handler is called once. -/
theorem missing_option_takes_front_of_empty (self : Arguments) (functor : Handler) :
    paramValues [] (.ofLong "name") = []
      ∧ (self.run 1 (argvOf [some "prog"]) functor [.option (.ofLong "name")]).output
          = ["Error: No value for --name\n"]
      ∧ (self.run 1 (argvOf [some "prog"]) functor [.option (.ofLong "name")]).calls = []
      ∧ (self.run 1 (argvOf [some "prog"]) functor [.option (.ofLong "name")]).term
          = .undefined := by
  exact ⟨rfl, rfl, rfl, rfl⟩

/-- C11 (the code departs from the claim): with the option `--name` declared before
the option `-o` / `--out` and the arguments `prog --out a -o b file`, the option
`--out` receives the two values `b` (under `-o`) and `a` (under `--out`), but the
binder comes to `--name` first, writes "Error: No value for --name" and takes
`paramValues.front()` of the empty vector: the line "Error: Multiple values for
--out" is never written and the handler is not called.  The claim requires the line,
the call of the handler and `b` as the bound value. -/
theorem multiple_values_behind_missing_option (self : Arguments) (functor : Handler) :
    scanTokens [.option (.ofLong "name"), .option (.ofShortLong 'o' "out")]
        ["--out", "a", "-o", "b", "file"]
        = .exhausted { optionValues := [("--out", ["a"]), ("-o", ["b"])]
                       positionalArgs := ["file"], setFlags := [] }
      ∧ paramValues [("--out", ["a"]), ("-o", ["b"])] (.ofShortLong 'o' "out") = ["b", "a"]
      ∧ paramValues [("--out", ["a"]), ("-o", ["b"])] (.ofLong "name") = []
      ∧ (self.run 6 (argvOf [some "prog", some "--out", some "a", some "-o", some "b",
            some "file"]) functor
            [.option (.ofLong "name"), .option (.ofShortLong 'o' "out")]).output
          = ["Error: No value for --name\n"]
      ∧ (self.run 6 (argvOf [some "prog", some "--out", some "a", some "-o", some "b",
            some "file"]) functor
            [.option (.ofLong "name"), .option (.ofShortLong 'o' "out")]).calls = []
      ∧ (self.run 6 (argvOf [some "prog", some "--out", some "a", some "-o", some "b",
            some "file"]) functor
            [.option (.ofLong "name"), .option (.ofShortLong 'o' "out")]).term
          = .undefined := by
  exact ⟨rfl, rfl, rfl, rfl, rfl, rfl⟩

/-- C12: for a duplicate-free descriptor list and a well-formed `argv` without
`--help` that the loop scans without a usage error, with a value for every declared
`Option`, the handler is called once and the integer `run` returns is the integer
value of the status the handler returned; in particular a handler that returns a
given enumerator, whichever of the 16, makes `run` return its value.  And on every
input whatsoever, a return of `run` without a call of the handler gives 0 or 64. -/
theorem exit_status_forwarded (self : Arguments) (argc : Int)
    (argv : Nat → Option String) (functor : Handler) (params : List Param) (st : ScanState)
    (hdup : DuplicateFree params) (hwf : WellFormed argc argv)
    (hhelp : helpOption ∉ argStrings argc argv)
    (hscan : (scanTokens params (argStrings argc argv).tail).state? = some st)
    (hvals : ∀ p, Param.option p ∈ params → paramValues st.optionValues p ≠ []) :
    (∃ bound, (self.run argc argv functor params).calls = [⟨bound, st.positionalArgs⟩]
        ∧ (self.run argc argv functor params).term
            = .returned (functor bound st.positionalArgs).toInt)
      ∧ (∀ status : ExitStatus,
          (self.run argc argv (fun _ _ => status) params).term = .returned status.toInt)
      ∧ (∀ (argc1 : Int) (argv1 : Nat → Option String) (functor1 : Handler)
          (params1 : List Param) (n : Int),
          (self.run argc1 argv1 functor1 params1).term = .returned n →
          (self.run argc1 argv1 functor1 params1).calls = [] → n = 0 ∨ n = 64) := by
  have key : ∀ functor0 : Handler, ∃ bound,
      (self.run argc argv functor0 params).calls = [⟨bound, st.positionalArgs⟩]
        ∧ (self.run argc argv functor0 params).term
            = .returned (functor0 bound st.positionalArgs).toInt := by
    intro functor0
    obtain ⟨bound, _, hc, hs⟩ := runParams_invokes st.positionalArgs st.setFlags params []
      st.optionValues { handler := functor0, bound := [] } hvals
    refine ⟨bound, ?_, ?_⟩
    · rw [run_bind self argc argv functor0 params _ _ st hwf hhelp
        (readNames_duplicateFree params hdup) hscan]
      simpa using hc
    · rw [run_bind self argc argv functor0 params _ _ st hwf hhelp
        (readNames_duplicateFree params hdup) hscan]
      simp only [hs]
      simp
  refine ⟨key functor, ?_, ?_⟩
  · intro status
    obtain ⟨bound, _, ht⟩ := key (fun _ _ => status)
    exact ht
  · intro argc1 argv1 functor1 params1 n hterm hcalls
    rcases run_returned_cases self argc1 argv1 functor1 params1 n hterm with h | h
    · exact h.1
    · obtain ⟨bound, positionalArgs, hc, _⟩ := h
      rw [hcalls] at hc
      simp at hc

/-- C12, at `prog in --out a` with the option `-o` / `--out` declared and a handler
that reports `OK`. -/
theorem exit_status_forwarded_witness :
    (∃ bound, (Arguments.run ⟨"", ""⟩ 4
          (argvOf [some "prog", some "in", some "--out", some "a"]) okHandler
          [.option (.ofShortLong 'o' "out")]).calls = [⟨bound, ["in"]⟩]
        ∧ (Arguments.run ⟨"", ""⟩ 4
          (argvOf [some "prog", some "in", some "--out", some "a"]) okHandler
          [.option (.ofShortLong 'o' "out")]).term
            = .returned (okHandler bound ["in"]).toInt)
      ∧ (∀ status : ExitStatus,
          (Arguments.run ⟨"", ""⟩ 4
            (argvOf [some "prog", some "in", some "--out", some "a"]) (fun _ _ => status)
            [.option (.ofShortLong 'o' "out")]).term = .returned status.toInt)
      ∧ (∀ (argc1 : Int) (argv1 : Nat → Option String) (functor1 : Handler)
          (params1 : List Param) (n : Int),
          (Arguments.run ⟨"", ""⟩ argc1 argv1 functor1 params1).term = .returned n →
          (Arguments.run ⟨"", ""⟩ argc1 argv1 functor1 params1).calls = [] →
          n = 0 ∨ n = 64) :=
  exit_status_forwarded ⟨"", ""⟩ 4
    (argvOf [some "prog", some "in", some "--out", some "a"]) okHandler
    [.option (.ofShortLong 'o' "out")]
    { optionValues := [("--out", ["a"])], positionalArgs := ["in"], setFlags := [] }
    (by decide)
    ⟨by decide, fun index h => by
      have h1 : index < 4 := by omega
      interval_cases index <;> simp [argvOf]⟩
    (by decide) (by decide)
    (by
      intro p hp
      simp only [List.mem_singleton, Param.option.injEq] at hp
      subst hp
      decide)

/-- C13: `ExitStatus` has exactly the 16 enumerators `OK`, `USAGE`, `DATAERR`,
`NOINPUT`, `NOUSER`, `NOHOST`, `UNAVAILABLE`, `SOFTWARE`, `OSERR`, `OSFILE`,
`CANTCREAT`, `IOERR`, `TEMPFAIL`, `PROTOCOL`, `NOPERM`, `CONFIG`, with the integer
values 0, 64, 65, ..., 78 in this order; the mapping to integers is injective, and
`OK` is the only enumerator with the value 0. -/
theorem exitStatus_sysexits :
    (∀ status : ExitStatus, status ∈ [ExitStatus.OK, .USAGE, .DATAERR, .NOINPUT, .NOUSER,
        .NOHOST, .UNAVAILABLE, .SOFTWARE, .OSERR, .OSFILE, .CANTCREAT, .IOERR, .TEMPFAIL,
        .PROTOCOL, .NOPERM, .CONFIG])
      ∧ [ExitStatus.OK, .USAGE, .DATAERR, .NOINPUT, .NOUSER, .NOHOST, .UNAVAILABLE,
          .SOFTWARE, .OSERR, .OSFILE, .CANTCREAT, .IOERR, .TEMPFAIL, .PROTOCOL, .NOPERM,
          .CONFIG].map ExitStatus.toInt
          = [0, 64, 65, 66, 67, 68, 69, 70, 71, 72, 73, 74, 75, 76, 77, 78]
      ∧ Function.Injective ExitStatus.toInt
      ∧ ∀ status : ExitStatus, status.toInt = 0 ↔ status = ExitStatus.OK := by
  refine ⟨?_, rfl, ?_, ?_⟩
  · intro status
    cases status <;> decide
  · intro a b h
    cases a <;> cases b <;> first | rfl | (simp [ExitStatus.toInt] at h)
  · intro status
    cases status <;> simp [ExitStatus.toInt]

/-- C14: for a duplicate-free descriptor list `readNames` returns; `allNames` then
holds exactly the aliases of all descriptors and `optionNames` exactly the aliases
of the `Option` descriptors; so `optionNames` is a subset of `allNames`, and no alias
of a `Flag` is in `optionNames`. -/
theorem name_registry (params : List Param) (hdup : DuplicateFree params) :
    ∃ optionNames allNames, readNames [] [] params = .ok (optionNames, allNames)
      ∧ (∀ name, name ∈ allNames ↔ ∃ param ∈ params, name ∈ param.paramName.names)
      ∧ (∀ name, name ∈ optionNames ↔ ∃ p, Param.option p ∈ params ∧ name ∈ p.names)
      ∧ optionNames ⊆ allNames
      ∧ (∀ f, Param.flag f ∈ params → ∀ name ∈ f.names, name ∉ optionNames) :=
  ⟨optionAliases params, allAliases params, readNames_duplicateFree params hdup,
    mem_allAliases params, mem_optionAliases_iff params,
    (optionAliases_sublist params).subset,
    fun f hf name hname => flag_alias_not_mem_optionAliases params hdup f hf name hname⟩

/-- C14, with the option `-o` / `--out`, the flag `-v` / `--verbose` and the option
`--name` declared. -/
theorem name_registry_witness :
    ∃ optionNames allNames,
      readNames [] [] [.option (.ofShortLong 'o' "out"), .flag (.ofShortLong 'v' "verbose"),
        .option (.ofLong "name")] = .ok (optionNames, allNames)
      ∧ (∀ name, name ∈ allNames ↔ ∃ param ∈ [Param.option (.ofShortLong 'o' "out"),
          .flag (.ofShortLong 'v' "verbose"), .option (.ofLong "name")],
          name ∈ param.paramName.names)
      ∧ (∀ name, name ∈ optionNames ↔ ∃ p, Param.option p ∈ [Param.option
          (.ofShortLong 'o' "out"), .flag (.ofShortLong 'v' "verbose"),
          .option (.ofLong "name")] ∧ name ∈ p.names)
      ∧ optionNames ⊆ allNames
      ∧ (∀ f, Param.flag f ∈ [Param.option (.ofShortLong 'o' "out"),
          .flag (.ofShortLong 'v' "verbose"), .option (.ofLong "name")] →
          ∀ name ∈ f.names, name ∉ optionNames) :=
  name_registry [.option (.ofShortLong 'o' "out"), .flag (.ofShortLong 'v' "verbose"),
    .option (.ofLong "name")] (by decide)

/-- C15: for a descriptor built from the long name `L` only, `forEachName` calls the
functor once, with `"--" + L`; for a descriptor built from the short character `c`
and the long name `L`, it calls the functor with `"-" + c` and then with `"--" + L`,
once each, and a functor that throws at `"-" + c` is not called again; `longName()`
is `"--" + L` in both cases. -/
theorem paramName_aliases {σ : Type} (c : Char) (L : String) (functor : String → σ → σ)
    (s : σ) :
    (ParamName.ofLong L).forEachName functor s = functor ("--" ++ L) s
      ∧ (ParamName.ofShortLong c L).forEachName functor s
          = functor ("--" ++ L) (functor ("-" ++ String.singleton c) s)
      ∧ (ParamName.ofLong L).names = ["--" ++ L]
      ∧ (ParamName.ofShortLong c L).names = ["-" ++ String.singleton c, "--" ++ L]
      ∧ (ParamName.ofLong L).longName = "--" ++ L
      ∧ (ParamName.ofShortLong c L).longName = "--" ++ L
      ∧ (∀ (ε : Type) (thrower : String → σ → Except ε σ),
          (ParamName.ofLong L).forEachNameExcept thrower s = thrower ("--" ++ L) s
            ∧ (ParamName.ofShortLong c L).forEachNameExcept thrower s
                = (thrower ("-" ++ String.singleton c) s).bind (thrower ("--" ++ L))) := by
  refine ⟨rfl, rfl, rfl, rfl, rfl, rfl, ?_⟩
  intro ε thrower
  refine ⟨rfl, ?_⟩
  have hpush : "-".push c = "-" ++ String.singleton c := rfl
  simp only [ParamName.forEachNameExcept, ParamName.shortName_, ParamName.longName_, hpush]
  cases thrower ("-" ++ String.singleton c) s <;> rfl

/-- C16: for every `argv` with `argc > 0`, no null entry and no `--help`, `run` throws
the `logic_error` if and only if some string occurs at least twice in the
concatenation, in declaration order, of the alias lists of all descriptors.  When it
is thrown, its message is "Duplicate name ..." , the handler has not been called and
nothing has been written to the output (no token was reported as unknown or as
lacking a value). -/
theorem duplicate_detection_exact (self : Arguments) (argc : Int)
    (argv : Nat → Option String) (functor : Handler) (params : List Param)
    (hwf : WellFormed argc argv) (hhelp : helpOption ∉ argStrings argc argv) :
    ((∃ what, (self.run argc argv functor params).term = .threw what)
        ↔ ∃ name, 2 ≤ List.count name (allAliases params))
      ∧ (∀ what, (self.run argc argv functor params).term = .threw what →
          (∃ name, what = "Duplicate name " ++ name)
            ∧ (self.run argc argv functor params).calls = []
            ∧ (self.run argc argv functor params).output = []) := by
  have hcount : (∃ name, 2 ≤ List.count name (allAliases params)) ↔ ¬ DuplicateFree params := by
    unfold DuplicateFree
    rw [List.nodup_iff_count_le_one]
    constructor
    · rintro ⟨name, h⟩ hall
      have := hall name
      omega
    · intro h
      by_contra hne
      apply h
      intro name
      by_contra hgt
      exact hne ⟨name, by omega⟩
  by_cases hdup : DuplicateFree params
  · have hnot := run_not_threw self argc argv functor params hdup hwf hhelp
    refine ⟨?_, ?_⟩
    · rw [hcount]
      constructor
      · rintro ⟨what, h⟩
        exact absurd h (hnot what)
      · intro h
        exact absurd hdup h
    · intro what h
      exact absurd h (hnot what)
  · obtain ⟨name, hname⟩ := readNames_not_duplicateFree params hdup
    have hrun := run_duplicate self argc argv functor params _ hwf hhelp hname
    refine ⟨?_, ?_⟩
    · rw [hcount]
      exact ⟨fun _ => hdup, fun _ => ⟨_, by rw [hrun]⟩⟩
    · intro what h
      rw [hrun] at h ⊢
      simp only [Termination.threw.injEq] at h
      exact ⟨⟨name, h.symm⟩, rfl, rfl⟩

/-- C16, at `prog --bogus` with the flag `-x` / `--all` declared before the option
`-x` / `--exclude`. -/
theorem duplicate_detection_exact_witness :
    ((∃ what, (Arguments.run ⟨"", ""⟩ 2 (argvOf [some "prog", some "--bogus"]) okHandler
          [.flag (.ofShortLong 'x' "all"), .option (.ofShortLong 'x' "exclude")]).term
            = .threw what)
        ↔ ∃ name, 2 ≤ List.count name
            (allAliases [.flag (.ofShortLong 'x' "all"), .option (.ofShortLong 'x' "exclude")]))
      ∧ (∀ what, (Arguments.run ⟨"", ""⟩ 2 (argvOf [some "prog", some "--bogus"]) okHandler
          [.flag (.ofShortLong 'x' "all"), .option (.ofShortLong 'x' "exclude")]).term
            = .threw what →
          (∃ name, what = "Duplicate name " ++ name)
            ∧ (Arguments.run ⟨"", ""⟩ 2 (argvOf [some "prog", some "--bogus"]) okHandler
              [.flag (.ofShortLong 'x' "all"), .option (.ofShortLong 'x' "exclude")]).calls = []
            ∧ (Arguments.run ⟨"", ""⟩ 2 (argvOf [some "prog", some "--bogus"]) okHandler
              [.flag (.ofShortLong 'x' "all"), .option (.ofShortLong 'x' "exclude")]).output
                = []) :=
  duplicate_detection_exact ⟨"", ""⟩ 2 (argvOf [some "prog", some "--bogus"]) okHandler
    [.flag (.ofShortLong 'x' "all"), .option (.ofShortLong 'x' "exclude")]
    ⟨by decide, fun index h => by
      have h1 : index < 2 := by omega
      interval_cases index <;> simp [argvOf]⟩
    (by decide)

/-- C19: let the loop, with the registry `readNames` built, reach a token `name`
that is an alias of a declared `Option` (the loop run on the tokens before it comes
to their end, and `name` is not the terminator `--`).  Then whatever the next token
`value` is (it may begin with `-`, be `--`, or be a declared or undeclared name)
the loop appends it as it stands to the values of `name`, changes neither `setFlags`
nor `positionalArgs`, and goes on with the token after it: `value` causes no usage
error and no `break`; when `value` is the last token the loop ends normally. -/
theorem option_value_not_classified (params : List Param) (optionNames allNames : StrSet)
    (before after : List String) (name value : String) (st0 : ScanState) (p : ParamName)
    (hnames : readNames [] [] params = .ok (optionNames, allNames))
    (hbefore : scanArgs optionNames allNames ScanState.initial before = .exhausted st0)
    (hp : Param.option p ∈ params) (hname : name ∈ p.names) (hterm : name ≠ "--") :
    scanArgs optionNames allNames ScanState.initial (before ++ name :: value :: after)
        = scanArgs optionNames allNames
            { optionValues := st0.optionValues.emplaceBack name value
              positionalArgs := st0.positionalArgs, setFlags := st0.setFlags } after
      ∧ StrMap.values (st0.optionValues.emplaceBack name value) name
          = st0.optionValues.values name ++ [value]
      ∧ scanArgs optionNames allNames ScanState.initial (before ++ [name, value])
          = .exhausted { optionValues := st0.optionValues.emplaceBack name value
                         positionalArgs := st0.positionalArgs, setFlags := st0.setFlags } := by
  obtain ⟨_, hon, han⟩ := readNames_ok_inv params optionNames allNames hnames
  have hall : StrSet.count allNames name ≠ 0 := by
    rw [han, ne_eq, count_eq_zero_iff, not_not, mem_allAliases]
    exact ⟨Param.option p, hp, hname⟩
  have hopt : StrSet.count optionNames name ≠ 0 := by
    rw [hon, ne_eq, count_eq_zero_iff, not_not]
    exact mem_optionAliases params p name hp hname
  have hdash := startsWithDash_of_mem_names p name hname
  refine ⟨?_, ?_, ?_⟩
  · rw [scanArgs_append _ _ _ _ st0 _ hbefore,
      scanArgs_option_cons _ _ _ _ _ _ hterm hdash hall hopt]
  · rw [emplaceBack_values]
    simp
  · rw [scanArgs_append _ _ _ _ st0 _ hbefore,
      scanArgs_option_cons _ _ _ _ _ _ hterm hdash hall hopt]
    simp [scanArgs]

/-- C19, at the tokens `-v -o -- x` with the flag `-v` / `--verbose` and the option
`-o` / `--out` declared: the token `--` after `-o` is its value, and `x` is scanned
after it. -/
theorem option_value_not_classified_witness :
    scanArgs ["-o", "--out"] ["-v", "--verbose", "-o", "--out"] ScanState.initial
          (["-v"] ++ "-o" :: "--" :: ["x"])
        = scanArgs ["-o", "--out"] ["-v", "--verbose", "-o", "--out"]
            { optionValues := StrMap.emplaceBack [] "-o" "--"
              positionalArgs := [], setFlags := ["-v"] } ["x"]
      ∧ StrMap.values (StrMap.emplaceBack [] "-o" "--") "-o" = StrMap.values [] "-o" ++ ["--"]
      ∧ scanArgs ["-o", "--out"] ["-v", "--verbose", "-o", "--out"] ScanState.initial
          (["-v"] ++ ["-o", "--"])
          = .exhausted { optionValues := StrMap.emplaceBack [] "-o" "--"
                         positionalArgs := [], setFlags := ["-v"] } :=
  option_value_not_classified
    [.flag (.ofShortLong 'v' "verbose"), .option (.ofShortLong 'o' "out")]
    ["-o", "--out"] ["-v", "--verbose", "-o", "--out"] ["-v"] ["x"] "-o" "--"
    { optionValues := [], positionalArgs := [], setFlags := ["-v"] }
    (.ofShortLong 'o' "out") rfl (by decide) (by decide) (by decide) (by decide)

/-- C20: `--version` gets no treatment of its own.  For a descriptor list in which no
descriptor has the long name `version` and a well-formed `argv` without `--help`,
if `--version` is a token the loop reaches (with the registry `readNames` built, the
loop run on the tokens before it comes to their end), `run` reports it as an unknown
option, returns 64 (`USAGE`) and does not call the handler. -/
theorem version_is_unknown_option (self : Arguments) (argc : Int)
    (argv : Nat → Option String) (functor : Handler) (params : List Param)
    (optionNames allNames : StrSet) (before after : List String) (st : ScanState)
    (hnames : readNames [] [] params = .ok (optionNames, allNames))
    (hwf : WellFormed argc argv) (hhelp : helpOption ∉ argStrings argc argv)
    (hversion : ∀ param ∈ params, param.paramName.longName ≠ versionOption)
    (hsplit : (argStrings argc argv).tail = before ++ versionOption :: after)
    (hbefore : scanArgs optionNames allNames ScanState.initial before = .exhausted st) :
    (self.run argc argv functor params).term = .returned 64
      ∧ (self.run argc argv functor params).calls = []
      ∧ (self.run argc argv functor params).output
          = ["Error: Unknown option --version\n"] := by
  obtain ⟨_, _, han⟩ := readNames_ok_inv params optionNames allNames hnames
  have hcount : StrSet.count allNames versionOption = 0 := by
    rw [han, count_eq_zero_iff, mem_allAliases]
    rintro ⟨param, hparam, hmem⟩
    exact version_not_mem_names _ (hversion param hparam) hmem
  have hscan : scanArgs optionNames allNames ScanState.initial (argStrings argc argv).tail
      = .usage ("Error: Unknown option " ++ versionOption ++ "\n") := by
    rw [hsplit, scanArgs_append _ _ _ _ st _ hbefore,
      scanArgs_unknown _ _ _ _ _ (by decide) (by decide) hcount]
  rw [run_usage self argc argv functor params _ _ _ hwf hhelp hnames hscan]
  exact ⟨rfl, rfl, rfl⟩

/-- C20, at `prog -v --version` with the flag `-v` / `--verbose` declared. -/
theorem version_is_unknown_option_witness :
    (Arguments.run ⟨"", ""⟩ 3 (argvOf [some "prog", some "-v", some "--version"]) okHandler
        [.flag (.ofShortLong 'v' "verbose")]).term = .returned 64
      ∧ (Arguments.run ⟨"", ""⟩ 3 (argvOf [some "prog", some "-v", some "--version"])
        okHandler [.flag (.ofShortLong 'v' "verbose")]).calls = []
      ∧ (Arguments.run ⟨"", ""⟩ 3 (argvOf [some "prog", some "-v", some "--version"])
        okHandler [.flag (.ofShortLong 'v' "verbose")]).output
          = ["Error: Unknown option --version\n"] :=
  version_is_unknown_option ⟨"", ""⟩ 3 (argvOf [some "prog", some "-v", some "--version"])
    okHandler [.flag (.ofShortLong 'v' "verbose")] [] ["-v", "--verbose"] ["-v"] []
    { optionValues := [], positionalArgs := [], setFlags := ["-v"] }
    rfl
    ⟨by decide, fun index h => by
      have h1 : index < 3 := by omega
      interval_cases index <;> simp [argvOf]⟩
    (by decide)
    (by
      intro param hparam
      simp only [List.mem_singleton] at hparam
      subst hparam
      decide)
    (by decide) (by decide)

/-- C21: for a duplicate-free descriptor list, let two well-formed `argv` without
`--help` differ by the swap of two adjacent units of different declared
descriptors, the first unit starting at a token the loop reaches (a unit is a flag
token, or an option token with its value token); let the first `argv` hold no `--`,
be scanned without a usage error, and give every declared `Option` a value.  Then
both runs call the handler once, with the same bound values and the same positional
arguments, write the same lines and return the same status. -/
theorem bound_values_independent_of_unit_order (self : Arguments)
    (argc1 argc2 : Int) (argv1 argv2 : Nat → Option String) (functor : Handler)
    (params : List Param) (d1 d2 : Param) (before unit1 unit2 after : List String)
    (st0 st : ScanState)
    (hdup : DuplicateFree params)
    (hwf1 : WellFormed argc1 argv1) (hwf2 : WellFormed argc2 argv2)
    (hhelp1 : helpOption ∉ argStrings argc1 argv1)
    (hhelp2 : helpOption ∉ argStrings argc2 argv2)
    (hnoterm : "--" ∉ (argStrings argc1 argv1).tail)
    (hsplit1 : (argStrings argc1 argv1).tail = before ++ unit1 ++ unit2 ++ after)
    (hsplit2 : (argStrings argc2 argv2).tail = before ++ unit2 ++ unit1 ++ after)
    (hbefore : scanTokens params before = .exhausted st0)
    (hd1 : d1 ∈ params) (hd2 : d2 ∈ params) (hne : d1 ≠ d2)
    (hu1 : isUnitOf d1 unit1 = true) (hu2 : isUnitOf d2 unit2 = true)
    (hscan : (scanTokens params (argStrings argc1 argv1).tail).state? = some st)
    (hvals : ∀ p, Param.option p ∈ params → paramValues st.optionValues p ≠ []) :
    ∃ bound,
      (self.run argc1 argv1 functor params).calls = [⟨bound, st.positionalArgs⟩]
        ∧ (self.run argc2 argv2 functor params).calls = [⟨bound, st.positionalArgs⟩]
        ∧ (self.run argc1 argv1 functor params).term
            = .returned (functor bound st.positionalArgs).toInt
        ∧ (self.run argc2 argv2 functor params).term
            = .returned (functor bound st.positionalArgs).toInt
        ∧ (self.run argc1 argv1 functor params).output
            = (self.run argc2 argv2 functor params).output := by
  have hmem1 : ∀ t ∈ unit1, t ∈ (argStrings argc1 argv1).tail := by
    intro t ht
    rw [hsplit1]
    simp [ht]
  have hmem2 : ∀ t ∈ unit2, t ∈ (argStrings argc1 argv1).tail := by
    intro t ht
    rw [hsplit1]
    simp [ht]
  have hterm1 : "--" ∉ unit1 := fun h => hnoterm (hmem1 _ h)
  have hterm2 : "--" ∉ unit2 := fun h => hnoterm (hmem2 _ h)
  have hrun1 : scanArgs (optionAliases params) (allAliases params) ScanState.initial
      (argStrings argc1 argv1).tail
        = scanArgs (optionAliases params) (allAliases params)
            (unitEffect d2 unit2 (unitEffect d1 unit1 st0)) after := by
    rw [hsplit1, List.append_assoc, List.append_assoc,
      scanArgs_append _ _ _ _ st0 _ hbefore,
      scanArgs_unit params hdup d1 unit1 hd1 hu1 hterm1,
      scanArgs_unit params hdup d2 unit2 hd2 hu2 hterm2]
  have hrun2 : scanArgs (optionAliases params) (allAliases params) ScanState.initial
      (argStrings argc2 argv2).tail
        = scanArgs (optionAliases params) (allAliases params)
            (unitEffect d1 unit1 (unitEffect d2 unit2 st0)) after := by
    rw [hsplit2, List.append_assoc, List.append_assoc,
      scanArgs_append _ _ _ _ st0 _ hbefore,
      scanArgs_unit params hdup d2 unit2 hd2 hu2 hterm2,
      scanArgs_unit params hdup d1 unit1 hd1 hu1 hterm1]
  have hsame := unitEffect_comm params hdup d1 d2 unit1 unit2 hd1 hd2 hne hu1 hu2 st0
  have hscan1 : (scanArgs (optionAliases params) (allAliases params)
      (unitEffect d2 unit2 (unitEffect d1 unit1 st0)) after).state? = some st := by
    rw [← hrun1]
    exact hscan
  obtain ⟨st1, hscan2, hst⟩ :=
    (scanArgs_sameContents _ _ _ after _ hsame).2 st hscan1
  rw [← hrun2] at hscan2
  have hb1 := run_bind self argc1 argv1 functor params _ _ st hwf1 hhelp1
    (readNames_duplicateFree params hdup) hscan
  have hb2 := run_bind self argc2 argv2 functor params _ _ st1 hwf2 hhelp2
    (readNames_duplicateFree params hdup) hscan2
  have hcongr := runParams_congr st.positionalArgs st.setFlags st1.setFlags hst.2.1 params []
    st.optionValues st1.optionValues { handler := functor, bound := [] } hst.1
  rw [← hst.2.2, ← hcongr] at hb2
  obtain ⟨bound, _, hc, hs⟩ := runParams_invokes st.positionalArgs st.setFlags params []
    st.optionValues { handler := functor, bound := [] } hvals
  refine ⟨bound, ?_, ?_, ?_, ?_, ?_⟩
  · rw [hb1]
    simpa using hc
  · rw [hb2]
    simpa using hc
  · rw [hb1]
    simp only [hs]
    simp
  · rw [hb2]
    simp only [hs]
    simp
  · rw [hb1, hb2]

/-- C21, at `prog in -o a --verbose` and `prog in --verbose -o a` with the option
`-o` / `--out` and the flag `-v` / `--verbose` declared. -/
theorem bound_values_independent_of_unit_order_witness :
    ∃ bound,
      (Arguments.run ⟨"", ""⟩ 5
          (argvOf [some "prog", some "in", some "-o", some "a", some "--verbose"]) okHandler
          [.option (.ofShortLong 'o' "out"), .flag (.ofShortLong 'v' "verbose")]).calls
          = [⟨bound, ["in"]⟩]
        ∧ (Arguments.run ⟨"", ""⟩ 5
          (argvOf [some "prog", some "in", some "--verbose", some "-o", some "a"]) okHandler
          [.option (.ofShortLong 'o' "out"), .flag (.ofShortLong 'v' "verbose")]).calls
          = [⟨bound, ["in"]⟩]
        ∧ (Arguments.run ⟨"", ""⟩ 5
          (argvOf [some "prog", some "in", some "-o", some "a", some "--verbose"]) okHandler
          [.option (.ofShortLong 'o' "out"), .flag (.ofShortLong 'v' "verbose")]).term
            = .returned (okHandler bound ["in"]).toInt
        ∧ (Arguments.run ⟨"", ""⟩ 5
          (argvOf [some "prog", some "in", some "--verbose", some "-o", some "a"]) okHandler
          [.option (.ofShortLong 'o' "out"), .flag (.ofShortLong 'v' "verbose")]).term
            = .returned (okHandler bound ["in"]).toInt
        ∧ (Arguments.run ⟨"", ""⟩ 5
          (argvOf [some "prog", some "in", some "-o", some "a", some "--verbose"]) okHandler
          [.option (.ofShortLong 'o' "out"), .flag (.ofShortLong 'v' "verbose")]).output
            = (Arguments.run ⟨"", ""⟩ 5
          (argvOf [some "prog", some "in", some "--verbose", some "-o", some "a"]) okHandler
          [.option (.ofShortLong 'o' "out"), .flag (.ofShortLong 'v' "verbose")]).output :=
  bound_values_independent_of_unit_order ⟨"", ""⟩ 5 5
    (argvOf [some "prog", some "in", some "-o", some "a", some "--verbose"])
    (argvOf [some "prog", some "in", some "--verbose", some "-o", some "a"]) okHandler
    [.option (.ofShortLong 'o' "out"), .flag (.ofShortLong 'v' "verbose")]
    (.option (.ofShortLong 'o' "out")) (.flag (.ofShortLong 'v' "verbose"))
    ["in"] ["-o", "a"] ["--verbose"] []
    { optionValues := [], positionalArgs := ["in"], setFlags := [] }
    { optionValues := [("-o", ["a"])], positionalArgs := ["in"], setFlags := ["--verbose"] }
    (by decide)
    ⟨by decide, fun index h => by
      have h1 : index < 5 := by omega
      interval_cases index <;> simp [argvOf]⟩
    ⟨by decide, fun index h => by
      have h1 : index < 5 := by omega
      interval_cases index <;> simp [argvOf]⟩
    (by decide) (by decide) (by decide) (by decide) (by decide) (by decide)
    (by decide) (by decide) (by decide) (by decide) (by decide) (by decide)
    (by
      intro p hp
      simp only [List.mem_cons, Param.option.injEq, List.mem_singleton, List.not_mem_nil,
        or_false, reduceCtorEq] at hp
      subst hp
      decide)

/-- C22: for a duplicate-free descriptor list `readNames` returns the sets the loop
uses, and after every iteration of the loop of lines 285-318 that ends normally
(the loop has consumed the tokens `before` of `argv[1 .. argc)` and holds the
containers `st`): every key of `optionValues` is in `optionNames` and has a non-empty
vector, every member of `setFlags` is in `allNames` and not in `optionNames`, no key
of `optionValues` is in `setFlags`, and no element of `positionalArgs` begins with
`-`.  The same holds of the containers the binder receives, where `positionalArgs`
is the part collected so, followed after a `break` by the tokens from `--` on. -/
theorem scan_state_invariant (params : List Param) (tokens : List String)
    (hdup : DuplicateFree params) :
    readNames [] [] params = .ok (optionAliases params, allAliases params)
      ∧ (∀ before rest st, tokens = before ++ rest →
          scanTokens params before = .exhausted st →
          (∀ entry ∈ st.optionValues, entry.1 ∈ optionAliases params ∧ entry.2 ≠ [])
            ∧ (∀ name ∈ st.setFlags, name ∈ allAliases params ∧ name ∉ optionAliases params)
            ∧ (∀ entry ∈ st.optionValues, entry.1 ∉ st.setFlags)
            ∧ (∀ token ∈ st.positionalArgs, startsWithDash token = false))
      ∧ (∀ st, (scanTokens params tokens).state? = some st →
          (∀ entry ∈ st.optionValues, entry.1 ∈ optionAliases params ∧ entry.2 ≠ [])
            ∧ (∀ name ∈ st.setFlags, name ∈ allAliases params ∧ name ∉ optionAliases params)
            ∧ (∀ entry ∈ st.optionValues, entry.1 ∉ st.setFlags)
            ∧ ∃ collected fromTerminator,
                st.positionalArgs = collected ++ fromTerminator
                  ∧ (∀ token ∈ collected, startsWithDash token = false)
                  ∧ (fromTerminator = [] ∨ ∃ before after,
                      tokens = before ++ "--" :: after ∧ fromTerminator = "--" :: after)) := by
  have hinv : ∀ (before : List String) (st : ScanState),
      scanTokens params before = .exhausted st →
      ScanInvariant (optionAliases params) (allAliases params) st := by
    intro before st h
    exact scanArgs_invariant _ _ _ _ (scanInvariant_initial _ _) st h
  refine ⟨readNames_duplicateFree params hdup, ?_, ?_⟩
  · intro before rest st _ hscan
    obtain ⟨h1, h2, h3⟩ := hinv before st hscan
    exact ⟨h1, h2, fun entry he hf => (h2 _ hf).2 (h1 entry he).1, h3⟩
  · intro st hst
    unfold scanTokens at hst
    cases hs : scanArgs (optionAliases params) (allAliases params) ScanState.initial tokens with
    | usage line => rw [hs] at hst; simp [ScanResult.state?] at hst
    | exhausted st1 =>
      rw [hs] at hst
      simp only [ScanResult.state?, Option.some.injEq] at hst
      subst hst
      obtain ⟨h1, h2, h3⟩ := hinv tokens st1 hs
      exact ⟨h1, h2, fun entry he hf => (h2 _ hf).2 (h1 entry he).1,
        st1.positionalArgs, [], by simp, h3, Or.inl rfl⟩
    | terminated st1 =>
      rw [hs] at hst
      simp only [ScanResult.state?, Option.some.injEq] at hst
      subst hst
      obtain ⟨before, after, st0, hsplit, hscan, hst1⟩ :=
        scanArgs_terminated_split _ _ _ _ st1 hs
      obtain ⟨h1, h2, h3⟩ := hinv before st0 hscan
      subst hst1
      exact ⟨h1, h2, fun entry he hf => (h2 _ hf).2 (h1 entry he).1,
        st0.positionalArgs, "--" :: after, rfl, h3, Or.inr ⟨before, after, hsplit, rfl⟩⟩

/-- C22, at the tokens `-o a -v in -- -x` with the option `-o` / `--out` and the flag
`-v` / `--verbose` declared: the containers after the fourth token and those the
binder receives. -/
theorem scan_state_invariant_witness :
    ((∀ entry ∈ [("-o", ["a"])], entry.1 ∈ optionAliases [.option (.ofShortLong 'o' "out"),
          .flag (.ofShortLong 'v' "verbose")] ∧ entry.2 ≠ [])
        ∧ (∀ name ∈ ["-v"], name ∈ allAliases [.option (.ofShortLong 'o' "out"),
            .flag (.ofShortLong 'v' "verbose")]
          ∧ name ∉ optionAliases [.option (.ofShortLong 'o' "out"),
            .flag (.ofShortLong 'v' "verbose")])
        ∧ (∀ entry ∈ [("-o", ["a"])], entry.1 ∉ ["-v"])
        ∧ (∀ token ∈ ["in"], startsWithDash token = false))
      ∧ ∃ collected fromTerminator,
          ["in", "--", "-x"] = collected ++ fromTerminator
            ∧ (∀ token ∈ collected, startsWithDash token = false)
            ∧ (fromTerminator = [] ∨ ∃ before after,
                ["-o", "a", "-v", "in", "--", "-x"] = before ++ "--" :: after
                  ∧ fromTerminator = "--" :: after) :=
  have h := scan_state_invariant
    [.option (.ofShortLong 'o' "out"), .flag (.ofShortLong 'v' "verbose")]
    ["-o", "a", "-v", "in", "--", "-x"] (by decide)
  ⟨h.2.1 ["-o", "a", "-v", "in"] ["--", "-x"]
      { optionValues := [("-o", ["a"])], positionalArgs := ["in"], setFlags := ["-v"] }
      (by decide) (by decide),
    (h.2.2 { optionValues := [("-o", ["a"])], positionalArgs := ["in", "--", "-x"]
             setFlags := ["-v"] } (by decide)).2.2.2⟩

end Enhedron.CommandLine
